import Mathlib

/-!
# Verification of the plugin-engine dependency graph

A shallow embedding of `src/graph.model.ts` (class `Graph`), together with the
error constructors of `src/errors/`, and theorems settling the specification
claims about it.

Modelling conventions:
* `Node` mirrors the `Node` interface (`graph.interface.ts`): an `id`, an
  optional `deps` list (an absent `deps` field behaves exactly like `[]` in
  every code path — `deps?.forEach`, `deps?.includes`, `deps ?? []` — so we
  use a plain list), and the opaque payload fields collapsed into one string.
* The private `Map<NodeId, Node>` store is an association list with JavaScript
  `Map` semantics: `set` overwrites in place keeping insertion order, or
  appends; `delete` removes the entry; iteration follows insertion order.
* JavaScript `Set` membership in `DFS` is object identity.  Every node object
  that enters the traversal comes from the `unmarked = [...existing,
  ...newNodes]` array, whose entries are pairwise distinct objects, so we tag
  each node with its position in that array and key the mark sets by the tag.
* Exceptions become an explicit outcome type.  The recursion of `visit` is
  expressed with fuel; `fuel = unmarked.length + 1` is proven sufficient
  (`dfsLoop_not_fuelOut`), so the `fuelExhausted` outcome is an unreachable
  artifact of the embedding.
-/

namespace PluginEngine

/-- A graph node (`graph.interface.ts`): identity, declared dependencies and
an opaque payload standing for the arbitrary extra fields (`[x: string]: any`). -/
structure Node where
  id : String
  deps : List String := []
  payload : String := ""
deriving DecidableEq, Repr

abbrev NodeId := String

/-- Contents of a JavaScript `Map<NodeId, Node>` in insertion order. -/
abbrev Store := List (NodeId × Node)

/-- `Map.prototype.has`. -/
def mapHas (s : Store) (k : NodeId) : Bool :=
  s.any (fun p => p.1 = k)

/-- `Map.prototype.get` (keys are unique in a JS map; first match). -/
def mapGet : Store → NodeId → Option Node
  | [], _ => none
  | (k', v) :: rest, k => if k' = k then some v else mapGet rest k

/-- `Map.prototype.set`: overwrite in place if the key is present (keeping its
insertion position), otherwise append. -/
def mapSet (s : Store) (k : NodeId) (v : Node) : Store :=
  if mapHas s k then s.map (fun p => if p.1 = k then (k, v) else p)
  else s ++ [(k, v)]

/-- `Map.prototype.delete`. -/
def mapDelete (s : Store) (k : NodeId) : Store :=
  s.filter (fun p => ¬ p.1 = k)

/-- `removalType` of a `node:remove` event (`graph.interface.ts`). -/
inductive RemovalType
  | direct
  | prune
deriving DecidableEq, Repr

/-- The events of `GraphEvents` emitted through the `mitt` emitter. -/
inductive Event
  | add (node : Node)
  | remove (node : Node) (removalType : RemovalType)
  | replace (oldNode newNode : Node)
deriving DecidableEq, Repr

/-- The errors the graph can throw.
`cyclicalDependency` carries the id of the node revisited while in-progress
(`cyclical-dependency.error.ts`); `missingDependency` carries the id of the
dependent node, its full declared dependency list, and the list the error
constructor computes as `dependencies.filter(dep => graph.nodeList.has(dep))`
(`missing-dependency.error.ts`); `notImplemented` is the plain
`Error("Method not implemented.")` thrown by `replaceNode`. -/
inductive GraphError
  | cyclicalDependency (nodeId : NodeId)
  | missingDependency (nodeId : NodeId) (dependencies missingDeps : List NodeId)
  | notImplemented
deriving DecidableEq, Repr

/-- The list built inside the `MissingDependencyError` constructor:
`dependencies.filter(dep => graph.nodeList.has(dep))`.  (Note the filter keeps
the dependencies that ARE keys of the store.) -/
def missingList (storeKeys : List NodeId) (deps : List NodeId) : List NodeId :=
  deps.filter (fun dep => storeKeys.contains dep)

/-- A node tagged with its position in the `unmarked` array (standing for the
JavaScript object identity of that array entry). -/
abbrev INode := Nat × Node

/-- Tag each node of a list with its position, starting at `k`. -/
def indexFrom (k : Nat) : List Node → List INode
  | [] => []
  | n :: ns => (k, n) :: indexFrom (k + 1) ns

/-- Lookup in `new Map(unmarked.map(node => [node.id, node] as const))`:
with duplicate ids the LAST entry wins (JS `Map` constructor overwrites). -/
def umapGet : List INode → NodeId → Option INode
  | [], _ => none
  | p :: rest, d =>
    match umapGet rest d with
    | some q => some q
    | none => if p.2.id = d then some p else none

/-- The mutable locals of `Graph.DFS`: `sortedNodes` (built with `unshift`,
so the head finished last), and the two mark `Set`s, keyed by object tag. -/
structure DfsState where
  sortedNodes : List INode
  temporarlyMarked : List Nat
  permanentlyMarked : List Nat
deriving DecidableEq, Repr

/-- Outcome of a traversal step: normal return, a thrown error, or fuel
exhaustion (an artifact of the embedding, proven unreachable). -/
inductive DfsOutcome (α : Type)
  | ok (st : α)
  | threw (e : GraphError)
  | fuelOut
deriving DecidableEq, Repr

/-- The `node.deps?.forEach(dep => ...)` loop inside `visit`: look each
dependency up in the map; recurse into it (propagating a thrown error), or
throw `MissingDependencyError(node.id, node.deps ?? [], this)` when absent. -/
def visitDeps (umap : NodeId → Option INode) (storeKeys : List NodeId)
    (visitF : INode → DfsState → DfsOutcome DfsState) (n : Node) :
    List NodeId → DfsState → DfsOutcome DfsState
  | [], st => .ok st
  | d :: rest, st =>
    match umap d with
    | some depNode =>
      match visitF depNode st with
      | .ok st' => visitDeps umap storeKeys visitF n rest st'
      | .threw e => .threw e
      | .fuelOut => .fuelOut
    | none => .threw (.missingDependency n.id n.deps (missingList storeKeys n.deps))

/-- The recursive `visit` closure of `Graph.DFS`. -/
def visit (umap : NodeId → Option INode) (storeKeys : List NodeId) :
    Nat → INode → DfsState → DfsOutcome DfsState
  | 0, _, _ => .fuelOut
  | fuel + 1, p, st =>
    if p.1 ∈ st.permanentlyMarked then .ok st
    else if p.1 ∈ st.temporarlyMarked then .threw (.cyclicalDependency p.2.id)
    else
      match visitDeps umap storeKeys (visit umap storeKeys fuel) p.2 p.2.deps
          { st with temporarlyMarked := p.1 :: st.temporarlyMarked } with
      | .ok st2 =>
        .ok { sortedNodes := p :: st2.sortedNodes,
              temporarlyMarked := st2.temporarlyMarked.erase p.1,
              permanentlyMarked := p.1 :: st2.permanentlyMarked }
      | .threw e => .threw e
      | .fuelOut => .fuelOut

/-- The `while` loop of `Graph.DFS`: `unmarked.pop()` until exhausted, so the
array is traversed back to front; pass the reversed indexed array. -/
def dfsLoop (umap : NodeId → Option INode) (storeKeys : List NodeId) (fuel : Nat) :
    List INode → DfsState → DfsOutcome DfsState
  | [], st => .ok st
  | p :: rest, st =>
    match visit umap storeKeys fuel p st with
    | .ok st' => dfsLoop umap storeKeys fuel rest st'
    | .threw e => .threw e
    | .fuelOut => .fuelOut

/-- `Graph.DFS(existing, newNodes)`: run the traversal and return
`sortedNodes.filter(node => !existing.includes(node))` — by object identity,
the entries whose tag falls in the `newNodes` section of `unmarked`. -/
def runDFS (existing newNodes : List Node) (storeKeys : List NodeId) :
    DfsOutcome (List INode) :=
  let unmarked := indexFrom 0 (existing ++ newNodes)
  match dfsLoop (umapGet unmarked) storeKeys (unmarked.length + 1) unmarked.reverse
      ⟨[], [], []⟩ with
  | .ok st => .ok (st.sortedNodes.filter (fun p => existing.length ≤ p.1))
  | .threw e => .threw e
  | .fuelOut => .fuelOut

/-- Result of one public operation: the store contents after the call, the
events emitted (in order), and the error thrown, if any. -/
structure OpResult where
  store : Store
  events : List Event
  error : Option GraphError
deriving DecidableEq, Repr

/-- `Graph.addNode(...nodes)`: empty batches are a no-op (`hasOneOrMore`
guard); otherwise sort via `DFS` over the current store values, then set and
emit `node:add` for each sorted node in order.  The `fuelOut` branch is an
unreachable artifact (`addNode_no_fuel` below). -/
def addNode (store : Store) (nodes : List Node) : OpResult :=
  if nodes.isEmpty then ⟨store, [], none⟩
  else
    match runDFS (store.map Prod.snd) nodes (store.map Prod.fst) with
    | .ok sorted =>
      let committed := sorted.map Prod.snd
      ⟨committed.foldl (fun s n => mapSet s n.id n) store,
       committed.map Event.add, none⟩
    | .threw e => ⟨store, [], some e⟩
    | .fuelOut => ⟨store, [], some .notImplemented⟩

/-- Concatenation of lists produced per element (`Array.prototype.flatMap`). -/
def flatMapJS (l : List Node) (f : Node → List Node) : List Node :=
  match l with
  | [] => []
  | a :: rest => f a ++ flatMapJS rest f

/-- `Graph.removeNode(...nodeIds)`: collect the stored values whose id is
requested, then every stored value declaring one of those as a dependency
(one level, via `flatMap`); delete and emit `prune` events for the latter,
then delete and emit `direct` events for the former.  Never throws. -/
def removeNode (store : Store) (nodeIds : List NodeId) : OpResult :=
  let values := store.map Prod.snd
  let nodesToBeRemoved := values.filter (fun n => nodeIds.contains n.id)
  let dependentNodes := flatMapJS nodesToBeRemoved
    (fun dependency => values.filter (fun node => node.deps.contains dependency.id))
  let store1 := dependentNodes.foldl (fun s n => mapDelete s n.id) store
  let store2 := nodesToBeRemoved.foldl (fun s n => mapDelete s n.id) store1
  ⟨store2,
   dependentNodes.map (fun n => .remove n .prune)
     ++ nodesToBeRemoved.map (fun n => .remove n .direct),
   none⟩

/-- `Graph.replaceNode`: `throw new Error("Method not implemented.")` before
touching anything. -/
def replaceNode (store : Store) (nodes : List Node) : OpResult :=
  ⟨store, [], some .notImplemented⟩

/-! ## A minimal JavaScript heap for the `nodeList` getter

`get nodeList()` executes `return new Map(this._nodes)`.  Whether the caller
receives the private map itself or an independent object is an aliasing
question, so we model `Map` objects as heap cells addressed by handles: the
private `_nodes` map of the graph lives at some handle, and the getter
allocates a fresh cell initialised with a copy of its entries (that is what
`new Map(this._nodes)` does) and returns the new handle. -/

/-- A heap of JavaScript `Map<NodeId, Node>` objects, addressed by handle. -/
abbrev Heap := List Store

def heapRead (h : Heap) (r : Nat) : Store := (h.get? r).getD []

def heapWrite (h : Heap) (r : Nat) (s : Store) : Heap := h.set r s

/-- The `nodeList` getter: allocate a fresh `Map` holding a copy of the
entries of the map at handle `g`, and hand back the fresh handle. -/
def nodeListAlloc (h : Heap) (g : Nat) : Heap × Nat :=
  (h ++ [heapRead h g], h.length)

/-- `m.set(k, v)` on the heap object at handle `r`. -/
def heapMapSet (h : Heap) (r : Nat) (k : NodeId) (v : Node) : Heap :=
  heapWrite h r (mapSet (heapRead h r) k v)

/-- `m.delete(k)` on the heap object at handle `r`. -/
def heapMapDelete (h : Heap) (r : Nat) (k : NodeId) : Heap :=
  heapWrite h r (mapDelete (heapRead h r) k)

/-! ## Derived notions used by the claims -/

/-- Every key of the store is the id of the node stored under it.  Holds for
every store the class can build, since the only insertion is
`this._nodes.set(node.id, node)`. -/
def WfStore (s : Store) : Prop := ∀ p ∈ s, p.1 = p.2.id

/-- The keys of the store are pairwise distinct (JS `Map` semantics). -/
def KeysNodup (s : Store) : Prop := (s.map Prod.fst).Nodup

/-- One dependency hop between ids, resolved through the store. -/
def Step (s : Store) (a b : NodeId) : Prop :=
  ∃ n, mapGet s a = some n ∧ b ∈ n.deps

/-- No id reachable from itself through one or more dependency hops. -/
def Acyclic (s : Store) : Prop :=
  ∀ a, ¬ Relation.TransGen (Step s) a a

/-- Every dependency of every stored node resolves to a stored node. -/
def NoDangling (s : Store) : Prop :=
  ∀ p ∈ s, ∀ d ∈ p.2.deps, mapGet s d ≠ none

/-- The value a dependency id resolves to across `existing ++ candidates`
(last occurrence wins, as in the `DFS` map). -/
def valueGetLast : List Node → NodeId → Option Node
  | [], _ => none
  | n :: rest, d =>
    match valueGetLast rest d with
    | some m => some m
    | none => if n.id = d then some n else none

/-- One dependency hop of the would-be state of an `addNode` batch: ids are
resolved across the current store values followed by the candidates. -/
def UnionStep (store : Store) (ns : List Node) (a b : NodeId) : Prop :=
  ∃ n, valueGetLast (store.map Prod.snd ++ ns) a = some n ∧ b ∈ n.deps

/-- The store contents reachable from a fresh `new Graph()` by public
operations (on error the store is returned unchanged, so every branch is
covered). -/
inductive Reachable : Store → Prop
  | empty : Reachable []
  | addStep (s : Store) (ns : List Node) (hs : Reachable s) :
      Reachable (addNode s ns).store
  | removeStep (s : Store) (ids : List NodeId) (hs : Reachable s) :
      Reachable (removeNode s ids).store
  | replaceStep (s : Store) (ns : List Node) (hs : Reachable s) :
      Reachable (replaceNode s ns).store

/-- The nodes `removeNode store ids` actually deletes: those whose id is
requested, and those declaring a requested-and-present id as a direct
dependency (one level of pruning). -/
def directlyRemoved (store : Store) (ids : List NodeId) (n : Node) : Bool :=
  ids.contains n.id
    || n.deps.any (fun d => ids.contains d && (mapGet store d).isSome)

/-- Every dependency declared across the would-be state of an `addNode` batch
resolves within that state. -/
def AllDepsResolve (store : Store) (ns : List Node) : Prop :=
  ∀ n ∈ store.map Prod.snd ++ ns, ∀ d ∈ n.deps,
    valueGetLast (store.map Prod.snd ++ ns) d ≠ none

/-- Does this event concern the node with the given id? -/
def eventForId (k : NodeId) : Event → Bool
  | .add n => n.id = k
  | .remove n _ => n.id = k
  | .replace o n => o.id = k || n.id = k

/-! ### Invariants of the depth-first traversal

These predicates are not part of the source; they are the proof scaffolding
describing the `DFS` state. -/

/-- `p` is the entry its own id resolves to in the traversal map (the last
`unmarked` entry carrying that id: the one `map.get` returns). -/
def IsWinner (U : List INode) (p : INode) : Prop :=
  umapGet U p.2.id = some p

/-- In the (partial) `sortedNodes` list, every dependency of every element
resolves to an entry strictly later in the list (later = finished earlier,
since `unshift` prepends). -/
def GoodSorted (U : List INode) (L : List INode) : Prop :=
  ∀ l1 p l2, L = l1 ++ p :: l2 → ∀ d ∈ p.2.deps,
    ∃ q, umapGet U d = some q ∧ q ∈ l2

/-- Every element of `sortedNodes` shadowed by a later same-id entry of
`unmarked` is followed (strictly later in the list) by that shadowing
entry. -/
def WinnerLast (U : List INode) (L : List INode) : Prop :=
  ∀ l1 p l2, L = l1 ++ p :: l2 → ¬ IsWinner U p →
    ∃ q, umapGet U p.2.id = some q ∧ q ∈ l2

/-- The standing invariant of the `DFS` state: the permanent mark set and
`sortedNodes` grow in lockstep, every sorted entry comes from `unmarked`,
no entry is sorted twice, and the two ordering invariants above hold. -/
structure DfsInv (U : List INode) (st : DfsState) : Prop where
  sync : st.permanentlyMarked = st.sortedNodes.map Prod.fst
  elems : ∀ p ∈ st.sortedNodes, p ∈ U
  nodupIdx : (st.sortedNodes.map Prod.fst).Nodup
  good : GoodSorted U st.sortedNodes
  winner : WinnerLast U st.sortedNodes

/-- What one successful `visit` call guarantees, relating its input and
output states. -/
structure VisitPost (U : List INode) (p : INode) (stIn stOut : DfsState) :
    Prop where
  temp : stOut.temporarlyMarked = stIn.temporarlyMarked
  ext : ∃ pre, stOut.sortedNodes = pre ++ stIn.sortedNodes ∧
    ∀ q ∈ pre, IsWinner U q ∨ q = p
  permMono : stIn.permanentlyMarked ⊆ stOut.permanentlyMarked
  newPerm : ∀ i ∈ stOut.permanentlyMarked,
    i ∈ stIn.permanentlyMarked ∨ i ∉ stIn.temporarlyMarked
  self : p.1 ∈ stOut.permanentlyMarked

/-- Proof scaffolding: any error the traversal throws is either the
cyclical-dependency error for some id, or the missing-dependency error of a
traversed node one of whose dependencies the map does not resolve. -/
def ThrownShape (U : List INode) (sk : List NodeId) (e : GraphError) : Prop :=
  (∃ c, e = .cyclicalDependency c) ∨
  (∃ n0, n0 ∈ U.map Prod.snd ∧ (∃ d ∈ n0.deps, umapGet U d = none) ∧
    e = .missingDependency n0.id n0.deps (missingList sk n0.deps))

/-- Number of indices below `n` not in the temporary mark list: the measure
bounding the recursion depth of `visit`. -/
def undone (n : Nat) (temp : List Nat) : Nat :=
  ((Finset.range n).filter (fun i => i ∉ temp)).card

/-- Position of the first occurrence of `j` in a list of indices. -/
def posIn : List Nat → Nat → Nat
  | [], _ => 0
  | i :: rest, j => if i = j then 0 else posIn rest j + 1

instance (s : Store) (ns : List Node) : Decidable (AllDepsResolve s ns) :=
  List.decidableBAll _ _

instance (s : Store) : Decidable (WfStore s) :=
  List.decidableBAll _ s

instance (s : Store) : Decidable (KeysNodup s) :=
  List.nodupDecidable _

instance (s : Store) : Decidable (NoDangling s) :=
  List.decidableBAll _ s

/-! ## Basic lemmas about the map embedding -/

theorem mapGet_eq_none_iff (s : Store) (k : NodeId) :
    mapGet s k = none ↔ ∀ p ∈ s, p.1 ≠ k := by
  induction s with
  | nil => simp [mapGet]
  | cons p rest ih =>
    obtain ⟨k', v⟩ := p
    by_cases h : k' = k <;> simp [mapGet, h, ih]

theorem mapGet_mem {s : Store} {k : NodeId} {n : Node}
    (h : mapGet s k = some n) : (k, n) ∈ s := by
  induction s with
  | nil => simp [mapGet] at h
  | cons p rest ih =>
    obtain ⟨k', v⟩ := p
    by_cases hk : k' = k
    · subst hk
      simp [mapGet] at h
      simp [h]
    · simp only [mapGet, if_neg hk] at h
      exact List.mem_cons_of_mem _ (ih h)

theorem mem_mapGet {s : Store} {k : NodeId} {n : Node} (hn : KeysNodup s)
    (h : (k, n) ∈ s) : mapGet s k = some n := by
  induction s with
  | nil => simp at h
  | cons p rest ih =>
    obtain ⟨k', v⟩ := p
    rcases List.mem_cons.mp h with heq | hmem
    · have h1 : k = k' := congrArg Prod.fst heq
      have h2 : n = v := congrArg Prod.snd heq
      subst h1
      subst h2
      simp [mapGet]
    · have hk : k' ≠ k := by
        intro h'
        subst h'
        exact (List.nodup_cons.mp hn).1
          (List.mem_map.mpr ⟨(k', n), hmem, rfl⟩)
      rw [mapGet, if_neg hk]
      exact ih (List.nodup_cons.mp hn).2 hmem

theorem mapGet_isSome_iff (s : Store) (k : NodeId) :
    (mapGet s k).isSome ↔ ∃ p ∈ s, p.1 = k := by
  cases h : mapGet s k with
  | none =>
    simp only [Option.isSome_none, Bool.false_eq_true, false_iff]
    rintro ⟨p, hp, hk⟩
    exact (mapGet_eq_none_iff s k).mp h p hp hk
  | some n =>
    simp only [Option.isSome_some, true_iff]
    exact ⟨(k, n), mapGet_mem h, rfl⟩

theorem mapGet_mapDelete (s : Store) (k' k : NodeId) :
    mapGet (mapDelete s k') k = if k' = k then none else mapGet s k := by
  induction s with
  | nil => simp [mapDelete, mapGet]
  | cons p rest ih =>
    obtain ⟨k0, v⟩ := p
    by_cases h0 : k0 = k'
    · have hdel : mapDelete ((k0, v) :: rest) k' = mapDelete rest k' := by
        simp [mapDelete, h0]
      rw [hdel, ih]
      by_cases hk : k' = k
      · simp [hk]
      · have hk0 : k0 ≠ k := by
          rw [h0]
          exact hk
        simp [hk, mapGet, hk0]
    · have hdel : mapDelete ((k0, v) :: rest) k'
          = (k0, v) :: mapDelete rest k' := by
        simp [mapDelete, h0]
      rw [hdel]
      by_cases hk : k0 = k
      · have hk' : k' ≠ k := fun h => h0 (hk.trans h.symm)
        simp [mapGet, hk, hk']
      · simp [mapGet, hk, ih]

theorem mapGet_foldl_delete (l : List Node) (s : Store) (k : NodeId) :
    mapGet (l.foldl (fun s n => mapDelete s n.id) s) k
      = if l.any (fun n => n.id = k) then none else mapGet s k := by
  induction l generalizing s with
  | nil => simp
  | cons n rest ih =>
    simp only [List.foldl_cons, List.any_cons]
    rw [ih]
    by_cases hn : n.id = k
    · simp [hn, mapGet_mapDelete]
    · simp [hn, mapGet_mapDelete]

theorem mem_flatMapJS {l : List Node} {f : Node → List Node} {n : Node} :
    n ∈ flatMapJS l f ↔ ∃ a ∈ l, n ∈ f a := by
  induction l with
  | nil => simp [flatMapJS]
  | cons a rest ih => simp [flatMapJS, ih, List.mem_append, or_and_right,
      exists_or]

theorem flatMapJS_filter (l : List Node) (f : Node → List Node)
    (p : Node → Bool) :
    (flatMapJS l f).filter p = flatMapJS l (fun a => (f a).filter p) := by
  induction l with
  | nil => simp [flatMapJS]
  | cons a rest ih => simp [flatMapJS, List.filter_append, ih]

theorem flatMapJS_congr {l : List Node} {f g : Node → List Node}
    (h : ∀ a ∈ l, f a = g a) : flatMapJS l f = flatMapJS l g := by
  induction l with
  | nil => rfl
  | cons a rest ih =>
    simp only [flatMapJS]
    rw [h a (List.mem_cons_self a rest), ih (fun a ha => h a (List.mem_cons_of_mem _ ha))]

theorem flatMapJS_if_replicate (l : List Node) (P : Node → Bool) (v : Node) :
    flatMapJS l (fun a => if P a then [v] else [])
      = List.replicate (l.countP P) v := by
  induction l with
  | nil => simp [flatMapJS]
  | cons a rest ih =>
    by_cases hp : P a <;>
      simp [flatMapJS, List.countP_cons, hp, ih, List.replicate_succ]

theorem value_unique {s : Store} (hw : WfStore s) (hn : KeysNodup s)
    {k : NodeId} {n a : Node} (hkn : (k, n) ∈ s)
    (ha : a ∈ s.map Prod.snd) (hid : a.id = k) : a = n := by
  obtain ⟨⟨k', a'⟩, hpa, rfl⟩ := List.mem_map.mp ha
  have hk' : k' = k := (hw _ hpa).trans hid
  subst hk'
  have h1 := mem_mapGet hn hpa
  have h2 := mem_mapGet hn hkn
  exact Option.some.injEq .. ▸ (h1.symm.trans h2) ▸ rfl

theorem values_countP_id {s : Store} (hw : WfStore s) (hn : KeysNodup s)
    {k : NodeId} (hk : k ∈ s.map Prod.fst) :
    (s.map Prod.snd).countP (fun n => n.id = k) = 1 := by
  rw [List.countP_map]
  have hcg : s.countP ((fun n => decide (n.id = k)) ∘ Prod.snd)
      = s.countP (fun p => decide (p.1 = k)) := by
    apply List.countP_congr
    intro p hp
    simp [Function.comp, hw p hp]
  rw [hcg]
  have h3 : s.countP (fun p => decide (p.1 = k))
      = s.countP ((fun x => x == k) ∘ Prod.fst) := by
    apply List.countP_congr
    intro p hp
    simp [Function.comp]
  have h4 : (s.map Prod.fst).countP (fun x => x == k)
      = (s.map Prod.fst).count k := rfl
  rw [h3, ← List.countP_map, h4, List.count_eq_one_of_mem hn hk]

theorem values_filter_id_eq {s : Store} (hw : WfStore s) (hn : KeysNodup s)
    {k : NodeId} {n : Node} (hkn : (k, n) ∈ s) :
    (s.map Prod.snd).filter (fun a => a.id = k) = [n] := by
  have hlen : ((s.map Prod.snd).filter (fun a => decide (a.id = k))).length = 1 := by
    rw [← List.countP_eq_length_filter]
    exact values_countP_id hw hn (List.mem_map.mpr ⟨(k, n), hkn, rfl⟩)
  have hall : ∀ a ∈ (s.map Prod.snd).filter (fun a => decide (a.id = k)), a = n := by
    intro a ha
    obtain ⟨hmem, hid⟩ := List.mem_filter.mp ha
    exact value_unique hw hn hkn hmem (by simpa using hid)
  cases hfl : (s.map Prod.snd).filter (fun a => decide (a.id = k)) with
  | nil => rw [hfl] at hlen; simp at hlen
  | cons a rest =>
    rw [hfl] at hlen hall
    cases rest with
    | nil => rw [hall a (List.mem_cons_self a [])]
    | cons b r => simp at hlen

/-! ## C4: `replaceNode` is an unconditional throw -/

/-- C4: `replaceNode` never replaces anything: whatever the store and the
input batch, it throws `Error("Method not implemented.")`, leaves the store
untouched and emits no event.  This contradicts the replace semantics the
claim (and the test suite of the repository) describes. -/
theorem replaceNode_always_throws (s : Store) (ns : List Node) :
    replaceNode s ns = ⟨s, [], some .notImplemented⟩ := rfl

/-! ## C3: commit order is dependent-first, not dependency-first -/

/-- C3 failing input: adding `boris` (which depends on `bobinete`) together
with `bobinete` commits and emits `node:add` for `boris` BEFORE `bobinete`:
the resolver order produced by `unshift` puts dependents first, contradicting
the dependency-first order the claim states. -/
theorem addNode_commits_dependent_before_dependency :
    addNode [] [⟨"boris", ["bobinete"], ""⟩, ⟨"bobinete", [], ""⟩] =
      ⟨[("boris", ⟨"boris", ["bobinete"], ""⟩),
        ("bobinete", ⟨"bobinete", [], ""⟩)],
       [.add ⟨"boris", ["bobinete"], ""⟩, .add ⟨"bobinete", [], ""⟩],
       none⟩ := by decide

/-! ## C7: the missing-dependency report lists the PRESENT dependencies -/

/-- C7 failing input: `boris` declares `bob` (present) and `zed` (absent).
The thrown error carries as its missing-dependency list exactly `["bob"]` —
the dependency that IS in the store — because the constructor filters with
`graph.nodeList.has(dep)` instead of its negation; the genuinely absent
`zed` is not reported. -/
theorem missing_error_lists_present_deps :
    addNode [("bob", ⟨"bob", [], ""⟩)] [⟨"boris", ["bob", "zed"], ""⟩] =
      ⟨[("bob", ⟨"bob", [], ""⟩)], [],
       some (.missingDependency "boris" ["bob", "zed"] ["bob"])⟩ := by decide

/-! ## C6: failed mutations change nothing and emit nothing -/

/-- C6: if `addNode` or `replaceNode` reports an error, the store contents
after the call are exactly the contents before it, and no event was emitted.
In the source every mutation and emission happens strictly after dependency
resolution, which itself never touches the store. -/
theorem mutation_error_frame (s : Store) (ns : List Node) (e : GraphError) :
    ((addNode s ns).error = some e →
        (addNode s ns).store = s ∧ (addNode s ns).events = []) ∧
      ((replaceNode s ns).error = some e →
        (replaceNode s ns).store = s ∧ (replaceNode s ns).events = []) := by
  constructor
  · intro h
    unfold addNode at *
    by_cases hni : ns.isEmpty
    · simp [hni] at h
    · simp only [hni, if_false] at *
      cases hr : runDFS (s.map Prod.snd) ns (s.map Prod.fst) <;>
        simp [hr] at h ⊢
  · intro _
    exact ⟨rfl, rfl⟩

/-- Witness for C6 at a concrete failing input. -/
theorem mutation_error_frame_witness :
    ((addNode [] [⟨"boris", ["bob"], ""⟩]).error
        = some (.missingDependency "boris" ["bob"] []) ∧
      (addNode [] [⟨"boris", ["bob"], ""⟩]).store = [] ∧
      (addNode [] [⟨"boris", ["bob"], ""⟩]).events = []) := by
  refine ⟨by decide, ?_⟩
  exact (mutation_error_frame [] [⟨"boris", ["bob"], ""⟩]
    (.missingDependency "boris" ["bob"] [])).1 (by decide)

/-! ## C8: `removeNode` is total, and a no-op on absent ids -/

/-- C8: `removeNode` never reports an error, whatever the store and the id
list; and removing a single id that is not a key of the store leaves the
store unchanged and emits nothing. -/
theorem removeNode_total_and_absent_noop (s : Store) (ids : List NodeId)
    (x : NodeId) :
    (removeNode s ids).error = none ∧
    (WfStore s → mapGet s x = none → removeNode s [x] = ⟨s, [], none⟩) := by
  refine ⟨rfl, fun hw hx => ?_⟩
  have hv : (s.map Prod.snd).filter
      (fun n => decide (n.id = x)) = [] := by
    rw [List.filter_eq_nil_iff]
    intro n hn
    obtain ⟨p, hp, rfl⟩ := List.mem_map.mp hn
    have hid := hw p hp
    have hne := (mapGet_eq_none_iff s x).mp hx p hp
    simp_all
  simp [removeNode, hv, flatMapJS]

/-- Witness for C8 on a concrete store and absent id. -/
theorem removeNode_total_and_absent_noop_witness :
    WfStore [("bob", ⟨"bob", [], ""⟩)] ∧
    mapGet [("bob", ⟨"bob", [], ""⟩)] "zed" = none ∧
    removeNode [("bob", ⟨"bob", [], ""⟩)] ["zed"]
      = ⟨[("bob", ⟨"bob", [], ""⟩)], [], none⟩ := by
  refine ⟨by decide, by decide, ?_⟩
  exact (removeNode_total_and_absent_noop [("bob", ⟨"bob", [], ""⟩)]
    ["zed"] "zed").2 (by decide) (by decide)

/-! ## C9: `nodeList` returns an independent copy -/

/-- C9: reading `nodeList` of the graph whose private map lives at handle
`g` yields a fresh handle whose cell holds exactly the stored mapping (same
entries, keyed by the node ids whenever the store is well-formed); calling
`set` or `delete` on the returned map never changes the private map of the
graph, hence later `nodeList` reads still see the original contents. -/
theorem heapRead_append_left (h : Heap) (c : Store) (g : Nat)
    (hg : g < h.length) : heapRead (h ++ [c]) g = heapRead h g := by
  simp [heapRead, List.getElem?_append_left hg]

theorem heapRead_append_cell (h : Heap) (c : Store) :
    heapRead (h ++ [c]) h.length = c := by
  simp [heapRead]

theorem heapRead_write_ne (h : Heap) (r : Nat) (s : Store) (g : Nat)
    (hne : r ≠ g) : heapRead (heapWrite h r s) g = heapRead h g := by
  simp [heapRead, heapWrite, List.getElem?_set_ne hne]

theorem nodeList_independent_copy (h : Heap) (g : Nat) (hg : g < h.length) :
    heapRead (nodeListAlloc h g).1 (nodeListAlloc h g).2 = heapRead h g ∧
    (WfStore (heapRead h g) →
      ∀ p ∈ heapRead (nodeListAlloc h g).1 (nodeListAlloc h g).2,
        p.1 = p.2.id) ∧
    (∀ k v, heapRead (heapMapSet (nodeListAlloc h g).1 (nodeListAlloc h g).2 k v) g
        = heapRead h g) ∧
    (∀ k, heapRead (heapMapDelete (nodeListAlloc h g).1 (nodeListAlloc h g).2 k) g
        = heapRead h g) ∧
    (∀ k v,
      (nodeListAlloc (heapMapSet (nodeListAlloc h g).1 (nodeListAlloc h g).2 k v) g).1.get?
        (nodeListAlloc (heapMapSet (nodeListAlloc h g).1 (nodeListAlloc h g).2 k v) g).2
        = some (heapRead h g)) := by
  have hne : (nodeListAlloc h g).2 ≠ g := Nat.ne_of_gt hg
  have hcopy : heapRead (nodeListAlloc h g).1 (nodeListAlloc h g).2
      = heapRead h g := heapRead_append_cell h (heapRead h g)
  have hgread : ∀ s : Store,
      heapRead (heapWrite (nodeListAlloc h g).1 (nodeListAlloc h g).2 s) g
        = heapRead h g := fun s =>
    (heapRead_write_ne _ _ s g hne).trans (heapRead_append_left h _ g hg)
  refine ⟨hcopy, fun hw p hp => hw p (by rwa [hcopy] at hp),
    fun k v => hgread _, fun k => hgread _, fun k v => ?_⟩
  show ((heapMapSet (nodeListAlloc h g).1 (nodeListAlloc h g).2 k v)
      ++ [heapRead (heapMapSet (nodeListAlloc h g).1 (nodeListAlloc h g).2 k v) g]).get?
      (heapMapSet (nodeListAlloc h g).1 (nodeListAlloc h g).2 k v).length
    = some (heapRead h g)
  rw [List.get?_concat_length]
  exact congrArg some (hgread _)

/-- Witness for C9 on a one-graph heap holding one node. -/
theorem nodeList_independent_copy_witness :
    (0 : Nat) < ([[("bob", ⟨"bob", [], ""⟩)]] : Heap).length ∧
    heapRead (nodeListAlloc [[("bob", ⟨"bob", [], ""⟩)]] 0).1
        (nodeListAlloc [[("bob", ⟨"bob", [], ""⟩)]] 0).2
      = heapRead [[("bob", ⟨"bob", [], ""⟩)]] 0 ∧
    heapRead (heapMapSet (nodeListAlloc [[("bob", ⟨"bob", [], ""⟩)]] 0).1
        (nodeListAlloc [[("bob", ⟨"bob", [], ""⟩)]] 0).2 "billy" ⟨"billy", [], ""⟩) 0
      = heapRead [[("bob", ⟨"bob", [], ""⟩)]] 0 := by
  refine ⟨by decide, ?_, ?_⟩
  · exact (nodeList_independent_copy [[("bob", ⟨"bob", [], ""⟩)]] 0 (by decide)).1
  · exact (nodeList_independent_copy [[("bob", ⟨"bob", [], ""⟩)]] 0
      (by decide)).2.2.1 "billy" ⟨"billy", [], ""⟩

/-! ## C1 counterexample: removal does not cascade transitively -/

/-- C1 counterexample: build (by a successful `addNode`) the chain
`c → b → a`; the dependency closure of `c` contains `a`, yet after
`removeNode("a")` the node `c` is still stored (only `b`, the direct
dependent, was pruned).  So pruning is one level deep, not recursive. -/
theorem removeNode_no_transitive_cascade_cex :
    (addNode [] [⟨"a", [], ""⟩, ⟨"b", ["a"], ""⟩, ⟨"c", ["b"], ""⟩]).error = none ∧
    Relation.TransGen
      (Step (addNode [] [⟨"a", [], ""⟩, ⟨"b", ["a"], ""⟩, ⟨"c", ["b"], ""⟩]).store)
      "c" "a" ∧
    mapGet (removeNode
        (addNode [] [⟨"a", [], ""⟩, ⟨"b", ["a"], ""⟩, ⟨"c", ["b"], ""⟩]).store
        ["a"]).store "c"
      = some ⟨"c", ["b"], ""⟩ := by
  refine ⟨by decide, ?_, by decide⟩
  have h1 : Step (addNode [] [⟨"a", [], ""⟩, ⟨"b", ["a"], ""⟩,
      ⟨"c", ["b"], ""⟩]).store "c" "b" :=
    ⟨⟨"c", ["b"], ""⟩, by decide, by decide⟩
  have h2 : Step (addNode [] [⟨"a", [], ""⟩, ⟨"b", ["a"], ""⟩,
      ⟨"c", ["b"], ""⟩]).store "b" "a" :=
    ⟨⟨"b", ["a"], ""⟩, by decide, by decide⟩
  exact Relation.TransGen.head h1 (Relation.TransGen.single h2)

/-! ## C1 amended: removal prunes exactly one level of dependents -/

/-- Internal characterization of `removeNode` used by several claims. -/
theorem removeNode_get_char (s : Store) (ids : List NodeId)
    (k : NodeId) (hw : WfStore s) (hn : KeysNodup s) :
    mapGet (removeNode s ids).store k =
      match mapGet s k with
      | none => none
      | some n => if directlyRemoved s ids n then none else some n := by
  have hstore : (removeNode s ids).store =
      ((s.map Prod.snd).filter (fun n => ids.contains n.id)).foldl
        (fun s n => mapDelete s n.id)
        ((flatMapJS ((s.map Prod.snd).filter (fun n => ids.contains n.id))
            (fun dependency => (s.map Prod.snd).filter
              (fun node => node.deps.contains dependency.id))).foldl
          (fun s n => mapDelete s n.id) s) := rfl
  rw [hstore, mapGet_foldl_delete, mapGet_foldl_delete]
  cases hk : mapGet s k with
  | none =>
    have hnok : ∀ a ∈ s.map Prod.snd, a.id ≠ k := by
      intro a ha
      obtain ⟨p, hp, rfl⟩ := List.mem_map.mp ha
      rw [← hw p hp]
      exact (mapGet_eq_none_iff s k).mp hk p hp
    have hA : ((s.map Prod.snd).filter (fun n => ids.contains n.id)).any
        (fun n => n.id = k) = false := by
      rw [List.any_eq_false]
      intro a ha
      simpa using hnok a (List.mem_filter.mp ha).1
    have hB : (flatMapJS ((s.map Prod.snd).filter (fun n => ids.contains n.id))
        (fun dependency => (s.map Prod.snd).filter
          (fun node => node.deps.contains dependency.id))).any
        (fun n => n.id = k) = false := by
      rw [List.any_eq_false]
      intro a ha
      obtain ⟨d, _, hmem⟩ := mem_flatMapJS.mp ha
      simpa using hnok a (List.mem_filter.mp hmem).1
    simp [hA, hB, hk]
  | some n =>
    have hmemkn : (k, n) ∈ s := mapGet_mem hk
    have hidn : n.id = k := (hw _ hmemkn).symm
    have hA : ((s.map Prod.snd).filter (fun n => ids.contains n.id)).any
        (fun n => n.id = k) = ids.contains n.id := by
      by_cases hc : ids.contains n.id = true
      · rw [hc, List.any_eq_true]
        refine ⟨n, List.mem_filter.mpr ⟨List.mem_map.mpr ⟨(k, n), hmemkn, rfl⟩, hc⟩, by simp [hidn]⟩
      · rw [Bool.eq_false_iff.mpr hc, List.any_eq_false]
        intro a ha
        obtain ⟨hav, hac⟩ := List.mem_filter.mp ha
        intro haid
        have : a = n := value_unique hw hn hmemkn hav (by simpa using haid)
        rw [this] at hac
        exact hc hac
    have hB : (flatMapJS ((s.map Prod.snd).filter (fun n => ids.contains n.id))
        (fun dependency => (s.map Prod.snd).filter
          (fun node => node.deps.contains dependency.id))).any
        (fun n => n.id = k)
        = n.deps.any (fun d => ids.contains d && (mapGet s d).isSome) := by
      by_cases hdep : n.deps.any (fun d => ids.contains d && (mapGet s d).isSome) = true
      · rw [hdep, List.any_eq_true]
        obtain ⟨d, hdmem, hdc⟩ := List.any_eq_true.mp hdep
        obtain ⟨hdin, hdsome⟩ := Bool.and_eq_true .. ▸ hdc
        obtain ⟨m, hm⟩ := Option.isSome_iff_exists.mp hdsome
        have hmmem : (d, m) ∈ s := mapGet_mem hm
        have hmid : m.id = d := (hw _ hmmem).symm
        refine ⟨n, mem_flatMapJS.mpr ⟨m, ?_, ?_⟩, by simp [hidn]⟩
        · exact List.mem_filter.mpr ⟨List.mem_map.mpr ⟨(d, m), hmmem, rfl⟩,
            by rw [hmid]; exact hdin⟩
        · exact List.mem_filter.mpr ⟨List.mem_map.mpr ⟨(k, n), hmemkn, rfl⟩,
            by rw [hmid]; simpa using hdmem⟩
      · rw [Bool.eq_false_iff.mpr hdep, List.any_eq_false]
        intro a ha haid
        obtain ⟨dep, hdepmem, hamem⟩ := mem_flatMapJS.mp ha
        obtain ⟨hav, hadeps⟩ := List.mem_filter.mp hamem
        have han : a = n := value_unique hw hn hmemkn hav (by simpa using haid)
        obtain ⟨hdv, hdin⟩ := List.mem_filter.mp hdepmem
        obtain ⟨pd, hpd, rfl⟩ := List.mem_map.mp hdv
        apply hdep
        rw [List.any_eq_true]
        refine ⟨pd.2.id, ?_, ?_⟩
        · rw [← han]
          simpa using hadeps
        · rw [Bool.and_eq_true]
          refine ⟨by simpa using hdin, ?_⟩
          rw [← hw pd hpd]
          exact (mapGet_isSome_iff s pd.1).mpr ⟨pd, hpd, rfl⟩
    rw [hA, hB]
    simp only [directlyRemoved]
    by_cases h1 : n.id ∈ ids
    · simp [h1]
    · by_cases h2 : ∃ x ∈ n.deps, x ∈ ids ∧ (mapGet s x).isSome = true
      · simp [h1, h2]
      · simp [h1, h2, hk]

/-- C1 amended: for every well-formed store, `removeNode(ids)` removes
exactly the present nodes whose id was requested and the nodes declaring a
requested-and-present id as a DIRECT dependency; every other node keeps its
binding.  (Pruning is one level deep; it does not recurse, see the
counterexample.) -/
theorem removeNode_one_level_prune (s : Store) (ids : List NodeId)
    (k : NodeId) (hw : WfStore s) (hn : KeysNodup s) :
    mapGet (removeNode s ids).store k =
      match mapGet s k with
      | none => none
      | some n => if directlyRemoved s ids n then none else some n :=
  removeNode_get_char s ids k hw hn

/-- Witness for the amended C1 on the three-node chain. -/
theorem removeNode_one_level_prune_witness :
    WfStore [("c", ⟨"c", ["b"], ""⟩), ("b", ⟨"b", ["a"], ""⟩),
      ("a", ⟨"a", [], ""⟩)] ∧
    KeysNodup [("c", ⟨"c", ["b"], ""⟩), ("b", ⟨"b", ["a"], ""⟩),
      ("a", ⟨"a", [], ""⟩)] ∧
    mapGet (removeNode [("c", ⟨"c", ["b"], ""⟩), ("b", ⟨"b", ["a"], ""⟩),
        ("a", ⟨"a", [], ""⟩)] ["a"]).store "b" =
      match mapGet [("c", ⟨"c", ["b"], ""⟩), ("b", ⟨"b", ["a"], ""⟩),
        ("a", ⟨"a", [], ""⟩)] "b" with
      | none => none
      | some n => if directlyRemoved [("c", ⟨"c", ["b"], ""⟩),
          ("b", ⟨"b", ["a"], ""⟩), ("a", ⟨"a", [], ""⟩)] ["a"] n
          then none else some n := by
  refine ⟨by decide, by decide, ?_⟩
  exact removeNode_one_level_prune [("c", ⟨"c", ["b"], ""⟩),
    ("b", ⟨"b", ["a"], ""⟩), ("a", ⟨"a", [], ""⟩)] ["a"] "b"
    (by decide) (by decide)

/-! ## C2 counterexample: a reachable state with a dangling dependency -/

/-- C2 counterexample: the state after `addNode(a, b(a), c(b))` followed by
`removeNode("a")` is reachable through public operations, yet it stores `c`,
whose dependency `b` no longer resolves: the no-dangling invariant does not
survive `removeNode`. -/
theorem removeNode_dangling_dependency_cex :
    Reachable (removeNode
        (addNode [] [⟨"p", [], ""⟩, ⟨"q", ["p"], ""⟩, ⟨"r", ["q"], ""⟩]).store
        ["p"]).store ∧
    ¬ NoDangling (removeNode
        (addNode [] [⟨"p", [], ""⟩, ⟨"q", ["p"], ""⟩, ⟨"r", ["q"], ""⟩]).store
        ["p"]).store := by
  constructor
  · exact .removeStep _ _ (.addStep _ _ .empty)
  · decide

/-! ## C5 counterexample: a cycle-introducing batch can fail with the
missing-dependency error instead of the cyclical one -/

/-- C5 counterexample: the single candidate `a` with `deps = ["z", "a"]`
would introduce the self-cycle `a → a`, but the traversal meets the absent
dependency `z` first and throws the missing-dependency error, not the
cyclical-dependency error the claim promises for every cycle-introducing
batch. -/
theorem cycle_batch_fails_with_missing_cex :
    (addNode [] [⟨"a", ["z", "a"], ""⟩]).error
      = some (.missingDependency "a" ["z", "a"] []) ∧
    Relation.TransGen (UnionStep [] [⟨"a", ["z", "a"], ""⟩]) "a" "a" :=
  ⟨by decide, .single ⟨⟨"a", ["z", "a"], ""⟩, by decide, by decide⟩⟩

/-! ## Lemmas about the traversal map and position tagging -/

theorem umapGet_mem {U : List INode} {d : NodeId} {q : INode}
    (h : umapGet U d = some q) : q ∈ U := by
  induction U with
  | nil => simp [umapGet] at h
  | cons p rest ih =>
    rw [umapGet] at h
    cases hr : umapGet rest d with
    | some q' =>
      rw [hr] at h
      cases h
      exact List.mem_cons_of_mem _ (ih hr)
    | none =>
      rw [hr] at h
      by_cases hid : p.2.id = d
      · rw [if_pos hid] at h
        cases h
        exact List.mem_cons_self ..
      · rw [if_neg hid] at h
        cases h

theorem umapGet_id {U : List INode} {d : NodeId} {q : INode}
    (h : umapGet U d = some q) : q.2.id = d := by
  induction U with
  | nil => simp [umapGet] at h
  | cons p rest ih =>
    rw [umapGet] at h
    cases hr : umapGet rest d with
    | some q' =>
      rw [hr] at h
      cases h
      exact ih hr
    | none =>
      rw [hr] at h
      by_cases hid : p.2.id = d
      · rw [if_pos hid] at h
        cases h
        exact hid
      · rw [if_neg hid] at h
        cases h

theorem umapGet_isWinner {U : List INode} {d : NodeId} {q : INode}
    (h : umapGet U d = some q) : IsWinner U q := by
  unfold IsWinner
  rw [umapGet_id h]
  exact h

theorem mem_umapGet {U : List INode} {p : INode} (h : p ∈ U) :
    ∃ q, umapGet U p.2.id = some q := by
  induction U with
  | nil => simp at h
  | cons a rest ih =>
    rcases List.mem_cons.mp h with rfl | hmem
    · rw [umapGet]
      cases hr : umapGet rest p.2.id with
      | some q => exact ⟨q, rfl⟩
      | none => exact ⟨p, by simp⟩
    · obtain ⟨q, hq⟩ := ih hmem
      exact ⟨q, by rw [umapGet, hq]⟩

theorem mem_indexFrom_bounds {l : List Node} {k : Nat} {p : INode}
    (h : p ∈ indexFrom k l) : k ≤ p.1 ∧ p.1 < k + l.length := by
  induction l generalizing k with
  | nil => simp [indexFrom] at h
  | cons n rest ih =>
    rcases List.mem_cons.mp h with rfl | hmem
    · simp
    · have := ih hmem
      constructor
      · omega
      · simp only [List.length_cons]
        omega

theorem indexFrom_inj {l : List Node} {k : Nat} {p q : INode}
    (hp : p ∈ indexFrom k l) (hq : q ∈ indexFrom k l) (h : p.1 = q.1) :
    p = q := by
  induction l generalizing k with
  | nil => simp [indexFrom] at hp
  | cons n rest ih =>
    rcases List.mem_cons.mp hp with rfl | hpm <;>
      rcases List.mem_cons.mp hq with rfl | hqm
    · rfl
    · have := (mem_indexFrom_bounds hqm).1
      omega
    · have := (mem_indexFrom_bounds hpm).1
      omega
    · exact ih hpm hqm

theorem indexFrom_append (l1 l2 : List Node) (k : Nat) :
    indexFrom k (l1 ++ l2)
      = indexFrom k l1 ++ indexFrom (k + l1.length) l2 := by
  induction l1 generalizing k with
  | nil => simp [indexFrom]
  | cons n rest ih =>
    simp only [List.cons_append, indexFrom, List.length_cons, List.append_eq]
    rw [ih (k + 1)]
    have h2 : k + 1 + rest.length = k + (rest.length + 1) := by omega
    rw [h2]

theorem mem_indexFrom_of_mem {l : List Node} {n : Node} (h : n ∈ l)
    (k : Nat) : ∃ i, (i, n) ∈ indexFrom k l := by
  induction l generalizing k with
  | nil => simp at h
  | cons a rest ih =>
    rcases List.mem_cons.mp h with rfl | hmem
    · exact ⟨k, List.mem_cons_self ..⟩
    · obtain ⟨i, hi⟩ := ih hmem (k + 1)
      exact ⟨i, List.mem_cons_of_mem _ hi⟩

theorem snd_mem_of_mem_indexFrom {l : List Node} {k : Nat} {p : INode}
    (h : p ∈ indexFrom k l) : p.2 ∈ l := by
  induction l generalizing k with
  | nil => simp [indexFrom] at h
  | cons n rest ih =>
    rcases List.mem_cons.mp h with rfl | hmem
    · exact List.mem_cons_self ..
    · exact List.mem_cons_of_mem _ (ih hmem)

theorem winner_idx_ge {l : List Node} {k : Nat} {p q : INode}
    (hp : p ∈ indexFrom k l)
    (hq : umapGet (indexFrom k l) p.2.id = some q) : p.1 ≤ q.1 := by
  induction l generalizing k with
  | nil => simp [indexFrom] at hp
  | cons n rest ih =>
    simp only [indexFrom, umapGet] at hq
    rcases List.mem_cons.mp hp with heq | hpm
    · cases hr : umapGet (indexFrom (k + 1) rest) p.2.id with
      | some q' =>
        rw [hr] at hq
        cases hq
        have hb := (mem_indexFrom_bounds (umapGet_mem hr)).1
        have hpk : p.1 = k := congrArg Prod.fst heq
        omega
      | none =>
        rw [hr] at hq
        have hid : (((k, n) : INode)).2.id = p.2.id :=
          congrArg (fun x : INode => x.2.id) heq.symm
        rw [if_pos hid] at hq
        cases hq
        exact le_of_eq (congrArg Prod.fst heq)
    · cases hr : umapGet (indexFrom (k + 1) rest) p.2.id with
      | some q' =>
        rw [hr] at hq
        cases hq
        exact ih hpm hr
      | none =>
        obtain ⟨q0, hq0⟩ := mem_umapGet hpm
        rw [hq0] at hr
        cases hr

theorem umapGet_valueGetLast (l : List Node) (k : Nat) (d : NodeId) :
    Option.map Prod.snd (umapGet (indexFrom k l) d) = valueGetLast l d := by
  induction l generalizing k with
  | nil => simp [indexFrom, umapGet, valueGetLast]
  | cons n rest ih =>
    rw [indexFrom, umapGet, valueGetLast, ← ih (k + 1)]
    cases hr : umapGet (indexFrom (k + 1) rest) d with
    | some q => simp
    | none =>
      simp only [Option.map_none]
      by_cases hid : n.id = d
      · simp [hid]
      · simp [hid]

theorem valueGetLast_eq_none_iff (l : List Node) (d : NodeId) :
    valueGetLast l d = none ↔ ∀ n ∈ l, n.id ≠ d := by
  induction l with
  | nil => simp [valueGetLast]
  | cons n rest ih =>
    rw [valueGetLast]
    cases hr : valueGetLast rest d with
    | some m =>
      simp only [hr]
      refine ⟨fun h => absurd h (by simp), fun hall => ?_⟩
      have h0 : valueGetLast rest d = none :=
        ih.mpr fun a ha => hall a (List.mem_cons_of_mem _ ha)
      rw [h0] at hr
      exact Option.noConfusion hr
    | none =>
      by_cases hid : n.id = d
      · simp [hid]
      · simp only [if_neg hid, true_iff, List.mem_cons]
        intro a ha
        rcases ha with rfl | ha
        · exact hid
        · exact (ih.mp hr) a ha

theorem valueGetLast_append (l1 l2 : List Node) (d : NodeId) :
    valueGetLast (l1 ++ l2) d
      = match valueGetLast l2 d with
        | some m => some m
        | none => valueGetLast l1 d := by
  induction l1 with
  | nil =>
    cases h2 : valueGetLast l2 d <;> simp [h2, valueGetLast]
  | cons n rest ih =>
    rw [List.cons_append, valueGetLast, ih]
    cases h2 : valueGetLast l2 d <;> simp [h2, valueGetLast]

theorem indexFrom_length (l : List Node) (k : Nat) :
    (indexFrom k l).length = l.length := by
  induction l generalizing k with
  | nil => rfl
  | cons n rest ih => simp [indexFrom, ih]

/-! ## Temporary-mark preservation and fuel sufficiency -/

theorem visitDeps_temp {umap : NodeId → Option INode} {sk : List NodeId}
    {visitF : INode → DfsState → DfsOutcome DfsState} {n : Node}
    {ds : List NodeId} {st st' : DfsState}
    (hF : ∀ q st1 st1', visitF q st1 = .ok st1' →
      st1'.temporarlyMarked = st1.temporarlyMarked)
    (h : visitDeps umap sk visitF n ds st = .ok st') :
    st'.temporarlyMarked = st.temporarlyMarked := by
  induction ds generalizing st with
  | nil =>
    simp only [visitDeps] at h
    cases h
    rfl
  | cons d rest ih =>
    simp only [visitDeps] at h
    split at h
    · split at h
      · rename_i st1 hv
        exact (ih h).trans (hF _ st st1 hv)
      · exact DfsOutcome.noConfusion h
      · exact DfsOutcome.noConfusion h
    · exact DfsOutcome.noConfusion h

theorem visit_temp {umap : NodeId → Option INode} {sk : List NodeId} :
    ∀ {fuel : Nat} {p : INode} {st st' : DfsState},
    visit umap sk fuel p st = .ok st' →
    st'.temporarlyMarked = st.temporarlyMarked := by
  intro fuel
  induction fuel with
  | zero =>
    intro p st st' h
    simp [visit] at h
  | succ fuel ih =>
    intro p st st' h
    simp only [visit] at h
    split at h
    · cases h
      rfl
    · split at h
      · exact DfsOutcome.noConfusion h
      · split at h
        · rename_i st2 hd
          cases h
          have ht2 := visitDeps_temp (fun q st1 st1' hv => ih hv) hd
          show st2.temporarlyMarked.erase p.1 = st.temporarlyMarked
          rw [ht2]
          exact List.erase_cons_head ..
        · exact DfsOutcome.noConfusion h
        · exact DfsOutcome.noConfusion h

theorem undone_le (n : Nat) (temp : List Nat) : undone n temp ≤ n := by
  unfold undone
  calc ((Finset.range n).filter (fun i => i ∉ temp)).card
      ≤ (Finset.range n).card := Finset.card_filter_le _ _
    _ = n := Finset.card_range n

theorem undone_cons_lt {n i : Nat} (temp : List Nat) (hi : i < n)
    (hmem : i ∉ temp) : undone n (i :: temp) < undone n temp := by
  unfold undone
  apply Finset.card_lt_card
  rw [Finset.ssubset_iff_of_subset]
  · refine ⟨i, ?_, ?_⟩
    · simp [Finset.mem_filter, Finset.mem_range, hi, hmem]
    · simp [Finset.mem_filter]
  · intro j hj
    simp only [Finset.mem_filter, Finset.mem_range, List.mem_cons] at hj ⊢
    exact ⟨hj.1, fun hc => hj.2 (Or.inr hc)⟩

theorem visitDeps_not_fuelOut {umap : NodeId → Option INode}
    {sk : List NodeId} {visitF : INode → DfsState → DfsOutcome DfsState}
    {n : Node} {T : List Nat}
    (hTF : ∀ q st1 st1', visitF q st1 = .ok st1' →
      st1'.temporarlyMarked = st1.temporarlyMarked)
    (hNF : ∀ d q st1, umap d = some q → st1.temporarlyMarked = T →
      visitF q st1 ≠ .fuelOut) :
    ∀ {ds : List NodeId} {st : DfsState}, st.temporarlyMarked = T →
      visitDeps umap sk visitF n ds st ≠ .fuelOut := by
  intro ds
  induction ds with
  | nil =>
    intro st hT h
    simp [visitDeps] at h
  | cons d rest ih =>
    intro st hT h
    simp only [visitDeps] at h
    split at h
    · rename_i q hm
      split at h
      · rename_i st1 hv
        exact ih ((hTF q st st1 hv).trans hT) h
      · exact DfsOutcome.noConfusion h
      · rename_i hv
        exact hNF d q st hm hT hv
    · exact DfsOutcome.noConfusion h

theorem visit_not_fuelOut {umap : NodeId → Option INode} {sk : List NodeId}
    {N : Nat} (hmap : ∀ d q, umap d = some q → q.1 < N) :
    ∀ {fuel : Nat} {p : INode} {st : DfsState}, p.1 < N →
      undone N st.temporarlyMarked < fuel →
      visit umap sk fuel p st ≠ .fuelOut := by
  intro fuel
  induction fuel with
  | zero =>
    intro p st hp hu
    omega
  | succ fuel ih =>
    intro p st hp hu h
    simp only [visit] at h
    split at h
    · exact DfsOutcome.noConfusion h
    · split at h
      · exact DfsOutcome.noConfusion h
      · rename_i h1 h2
        have hu1 : undone N (p.1 :: st.temporarlyMarked)
            < undone N st.temporarlyMarked := undone_cons_lt _ hp h2
        split at h
        · exact DfsOutcome.noConfusion h
        · exact DfsOutcome.noConfusion h
        · rename_i hd
          refine visitDeps_not_fuelOut (fun q st1 st1' hv => visit_temp hv)
            (fun d q st1 hdq hq1 => ih (hmap d q hdq) ?_) rfl hd
          rw [hq1]
          show undone N (p.1 :: st.temporarlyMarked) < fuel
          omega

theorem dfsLoop_not_fuelOut {umap : NodeId → Option INode} {sk : List NodeId}
    {N : Nat} (hmap : ∀ d q, umap d = some q → q.1 < N) :
    ∀ {l : List INode} {st : DfsState}, (∀ p ∈ l, p.1 < N) →
      dfsLoop umap sk (N + 1) l st ≠ .fuelOut := by
  intro l
  induction l with
  | nil =>
    intro st _ h
    simp [dfsLoop] at h
  | cons p rest ih =>
    intro st hl h
    simp only [dfsLoop] at h
    split at h
    · exact ih (fun q hq => hl q (List.mem_cons_of_mem _ hq)) h
    · exact DfsOutcome.noConfusion h
    · rename_i hv
      exact visit_not_fuelOut hmap (hl p (List.mem_cons_self ..))
        (Nat.lt_succ_of_le (undone_le N st.temporarlyMarked)) hv

theorem runDFS_not_fuelOut (existing newNodes : List Node)
    (sk : List NodeId) : runDFS existing newNodes sk ≠ .fuelOut := by
  intro h
  simp only [runDFS] at h
  split at h
  · exact DfsOutcome.noConfusion h
  · exact DfsOutcome.noConfusion h
  · rename_i hloop
    rw [indexFrom_length] at hloop
    refine dfsLoop_not_fuelOut ?_ ?_ hloop
    · intro d q hq
      have hb := mem_indexFrom_bounds (umapGet_mem hq)
      omega
    · intro p hp
      have hb := mem_indexFrom_bounds (List.mem_reverse.mp hp)
      omega

theorem addNode_error_from_threw (s : Store) (ns : List Node)
    (e : GraphError) (h : (addNode s ns).error = some e) :
    runDFS (s.map Prod.snd) ns (s.map Prod.fst) = .threw e := by
  unfold addNode at h
  by_cases hni : ns.isEmpty
  · simp [hni] at h
  · rw [if_neg hni] at h
    cases hr : runDFS (s.map Prod.snd) ns (s.map Prod.fst) with
    | ok sorted =>
      rw [hr] at h
      simp at h
    | threw e' =>
      rw [hr] at h
      have he : e' = e := by simpa using h
      rw [he]
    | fuelOut => exact absurd hr (runDFS_not_fuelOut _ _ _)

theorem addNode_ok_dfs (s : Store) (ns : List Node) (hne : ¬ ns.isEmpty)
    (h : (addNode s ns).error = none) :
    ∃ sorted, runDFS (s.map Prod.snd) ns (s.map Prod.fst) = .ok sorted ∧
      (addNode s ns).store
        = (sorted.map Prod.snd).foldl (fun s n => mapSet s n.id n) s ∧
      (addNode s ns).events = (sorted.map Prod.snd).map Event.add := by
  unfold addNode at h ⊢
  rw [if_neg hne] at h ⊢
  cases hr : runDFS (s.map Prod.snd) ns (s.map Prod.fst) with
  | ok sorted => exact ⟨sorted, rfl, rfl, rfl⟩
  | threw e' =>
    rw [hr] at h
    simp at h
  | fuelOut => exact absurd hr (runDFS_not_fuelOut _ _ _)

/-! ## The main traversal postcondition -/

theorem perm_to_sorted {U : List INode} {st : DfsState}
    (hUinj : ∀ a ∈ U, ∀ b ∈ U, a.1 = b.1 → a = b)
    (hinv : DfsInv U st) {q : INode} (hq : q ∈ U)
    (hperm : q.1 ∈ st.permanentlyMarked) : q ∈ st.sortedNodes := by
  rw [hinv.sync] at hperm
  obtain ⟨p, hp, hpq⟩ := List.mem_map.mp hperm
  have heq : p = q := hUinj p (hinv.elems p hp) q hq hpq
  rwa [← heq]

theorem visitDeps_post {U : List INode} {sk : List NodeId}
    {visitF : INode → DfsState → DfsOutcome DfsState} {n : Node}
    (hF : ∀ q st1 st1', IsWinner U q → DfsInv U st1 →
      visitF q st1 = .ok st1' → DfsInv U st1' ∧ VisitPost U q st1 st1') :
    ∀ {ds : List NodeId} {st st' : DfsState}, DfsInv U st →
      visitDeps (umapGet U) sk visitF n ds st = .ok st' →
      DfsInv U st' ∧
      st'.temporarlyMarked = st.temporarlyMarked ∧
      (∃ pre, st'.sortedNodes = pre ++ st.sortedNodes ∧
        ∀ q ∈ pre, IsWinner U q) ∧
      st.permanentlyMarked ⊆ st'.permanentlyMarked ∧
      (∀ i ∈ st'.permanentlyMarked,
        i ∈ st.permanentlyMarked ∨ i ∉ st.temporarlyMarked) ∧
      (∀ d ∈ ds, ∃ q, umapGet U d = some q ∧ q.1 ∈ st'.permanentlyMarked) := by
  intro ds
  induction ds with
  | nil =>
    intro st st' hinv h
    simp only [visitDeps] at h
    cases h
    exact ⟨hinv, rfl, ⟨[], rfl, by simp⟩, fun i hi => hi,
      fun i hi => .inl hi, by simp⟩
  | cons d rest ih =>
    intro st st' hinv h
    simp only [visitDeps] at h
    split at h
    · rename_i q hm
      split at h
      · rename_i st1 hv
        have hwq : IsWinner U q := umapGet_isWinner hm
        obtain ⟨hinv1, hpost1⟩ := hF q st st1 hwq hinv hv
        obtain ⟨hinv', htemp, ⟨pre2, hext2, hpre2⟩, hmono, hnew, hres⟩ :=
          ih hinv1 h
        obtain ⟨pre1, hext1, hpre1⟩ := hpost1.ext
        refine ⟨hinv', htemp.trans hpost1.temp, ⟨pre2 ++ pre1, ?_, ?_⟩,
          fun i hi => hmono (hpost1.permMono hi), ?_, ?_⟩
        · rw [hext2, hext1, List.append_assoc]
        · intro x hx
          rcases List.mem_append.mp hx with hx2 | hx1
          · exact hpre2 x hx2
          · rcases hpre1 x hx1 with hw | rfl
            · exact hw
            · exact hwq
        · intro i hi
          rcases hnew i hi with hi1 | hnt1
          · rcases hpost1.newPerm i hi1 with h0 | hnt0
            · exact .inl h0
            · exact .inr hnt0
          · rw [hpost1.temp] at hnt1
            exact .inr hnt1
        · intro d0 hd0
          rcases List.mem_cons.mp hd0 with rfl | hd0r
          · exact ⟨q, hm, hmono hpost1.self⟩
          · exact hres d0 hd0r
      · exact DfsOutcome.noConfusion h
      · exact DfsOutcome.noConfusion h
    · exact DfsOutcome.noConfusion h

theorem visit_post {U : List INode} {sk : List NodeId}
    (hUinj : ∀ a ∈ U, ∀ b ∈ U, a.1 = b.1 → a = b) :
    ∀ {fuel : Nat} {p : INode} {st st' : DfsState}, p ∈ U →
      (¬ IsWinner U p →
        ∃ q, umapGet U p.2.id = some q ∧ q ∈ st.sortedNodes) →
      DfsInv U st →
      visit (umapGet U) sk fuel p st = .ok st' →
      DfsInv U st' ∧ VisitPost U p st st' := by
  intro fuel
  induction fuel with
  | zero =>
    intro p st st' _ _ _ h
    simp [visit] at h
  | succ fuel ih =>
    intro p st st' hp hloser hinv h
    simp only [visit] at h
    split at h
    · rename_i hperm
      cases h
      exact ⟨hinv, ⟨rfl, ⟨[], rfl, by simp⟩, fun i hi => hi,
        fun i hi => .inl hi, hperm⟩⟩
    · rename_i hperm
      split at h
      · exact DfsOutcome.noConfusion h
      · rename_i htmp
        split at h
        · rename_i st2 hd
          cases h
          have hinv1 : DfsInv U
              { st with temporarlyMarked := p.1 :: st.temporarlyMarked } :=
            ⟨hinv.sync, hinv.elems, hinv.nodupIdx, hinv.good, hinv.winner⟩
          obtain ⟨hinv2, htemp2, ⟨pre2, hext2, hpre2⟩, hmono2, hnew2, hres2⟩ :=
            visitDeps_post
              (fun q st1 st1' hwq hinvq hv =>
                ih (umapGet_mem hwq) (fun hnw => absurd hwq hnw) hinvq hv)
              hinv1 hd
          have hext2' : st2.sortedNodes = pre2 ++ st.sortedNodes := hext2
          have htemp2' : st2.temporarlyMarked = p.1 :: st.temporarlyMarked :=
            htemp2
          have hnp2 : p.1 ∉ st2.permanentlyMarked := by
            intro hc
            rcases hnew2 p.1 hc with hin | hnin
            · exact hperm hin
            · exact hnin (List.mem_cons_self ..)
          have hsorted2 : ∀ d ∈ p.2.deps,
              ∃ q, umapGet U d = some q ∧ q ∈ st2.sortedNodes := by
            intro d hd0
            obtain ⟨q, hq, hqperm⟩ := hres2 d hd0
            exact ⟨q, hq, perm_to_sorted hUinj hinv2 (umapGet_mem hq) hqperm⟩
          refine ⟨⟨?_, ?_, ?_, ?_, ?_⟩, ⟨?_, ⟨p :: pre2, ?_, ?_⟩, ?_, ?_, ?_⟩⟩
          · show p.1 :: st2.permanentlyMarked = (p :: st2.sortedNodes).map Prod.fst
            rw [List.map_cons, hinv2.sync]
          · intro q hq
            rcases List.mem_cons.mp hq with rfl | hq2
            · exact hp
            · exact hinv2.elems q hq2
          · show ((p :: st2.sortedNodes).map Prod.fst).Nodup
            rw [List.map_cons, List.nodup_cons]
            refine ⟨?_, hinv2.nodupIdx⟩
            rw [← hinv2.sync]
            exact hnp2
          · intro l1 q l2 hdec d hd0
            cases l1 with
            | nil =>
              have h1 : p = q := by
                have := congrArg (fun l => List.head? l) hdec
                simpa using this
              have h2 : st2.sortedNodes = l2 := by
                have := congrArg (fun l => List.tail l) hdec
                simpa using this
              subst h1
              rw [← h2]
              exact hsorted2 d hd0
            | cons a l1' =>
              have h2 : st2.sortedNodes = l1' ++ q :: l2 := by
                have := congrArg (fun l => List.tail l) hdec
                simpa using this
              exact hinv2.good l1' q l2 h2 d hd0
          · intro l1 q l2 hdec hnw
            cases l1 with
            | nil =>
              have h1 : p = q := by
                have := congrArg (fun l => List.head? l) hdec
                simpa using this
              have h2 : st2.sortedNodes = l2 := by
                have := congrArg (fun l => List.tail l) hdec
                simpa using this
              subst h1
              obtain ⟨q0, hq0, hq0mem⟩ := hloser hnw
              refine ⟨q0, hq0, ?_⟩
              rw [← h2, hext2']
              exact List.mem_append_right _ hq0mem
            | cons a l1' =>
              have h2 : st2.sortedNodes = l1' ++ q :: l2 := by
                have := congrArg (fun l => List.tail l) hdec
                simpa using this
              exact hinv2.winner l1' q l2 h2 hnw
          · show st2.temporarlyMarked.erase p.1 = st.temporarlyMarked
            rw [htemp2']
            exact List.erase_cons_head ..
          · show p :: st2.sortedNodes = (p :: pre2) ++ st.sortedNodes
            rw [List.cons_append, hext2']
          · intro x hx
            rcases List.mem_cons.mp hx with rfl | hx2
            · exact .inr rfl
            · exact .inl (hpre2 x hx2)
          · intro i hi
            exact List.mem_cons_of_mem _ (hmono2 hi)
          · intro i hi
            rcases List.mem_cons.mp hi with rfl | hi2
            · exact .inr htmp
            · rcases hnew2 i hi2 with hin | hnin
              · exact .inl hin
              · exact .inr (fun hc => hnin (List.mem_cons_of_mem _ hc))
          · exact List.mem_cons_self ..
        · exact DfsOutcome.noConfusion h
        · exact DfsOutcome.noConfusion h

theorem indexFrom_get {l : List Node} :
    ∀ {j : Nat} (hj : j < l.length) (k : Nat),
      (k + j, l.get ⟨j, hj⟩) ∈ indexFrom k l := by
  induction l with
  | nil =>
    intro j hj k
    simp at hj
  | cons n rest ih =>
    intro j hj k
    cases j with
    | zero => simp [indexFrom]
    | succ j' =>
      have hj' : j' < rest.length := by simpa using hj
      have := ih hj' (k + 1)
      have harith : k + (j' + 1) = k + 1 + j' := by omega
      rw [indexFrom]
      refine List.mem_cons_of_mem _ ?_
      rw [harith]
      exact this

theorem indexFrom_take_succ {l : List Node} {j : Nat} (hj : j < l.length) :
    indexFrom 0 (l.take (j + 1))
      = indexFrom 0 (l.take j) ++ [(j, l.get ⟨j, hj⟩)] := by
  rw [List.take_succ, indexFrom_append]
  congr 1
  · rw [List.length_take, Nat.min_eq_left (le_of_lt hj)]
    have hget : l[j]? = some (l.get ⟨j, hj⟩) := by
      rw [List.getElem?_eq_getElem hj]
      rfl
    rw [hget]
    show indexFrom (0 + j) [l.get ⟨j, hj⟩] = [(j, l.get ⟨j, hj⟩)]
    rw [indexFrom, indexFrom]
    rw [Nat.zero_add]

theorem dfsLoop_post {nodes : List Node} {sk : List NodeId} {fuel : Nat} :
    ∀ {j : Nat} {st st' : DfsState}, j ≤ nodes.length →
      (∀ q ∈ indexFrom 0 nodes, j ≤ q.1 → q.1 ∈ st.permanentlyMarked) →
      DfsInv (indexFrom 0 nodes) st →
      dfsLoop (umapGet (indexFrom 0 nodes)) sk fuel
        ((indexFrom 0 (nodes.take j)).reverse) st = .ok st' →
      DfsInv (indexFrom 0 nodes) st' ∧
      (∀ q ∈ indexFrom 0 nodes, q.1 ∈ st'.permanentlyMarked) := by
  intro j
  induction j with
  | zero =>
    intro st st' _ hperm hinv h
    simp only [List.take_zero, indexFrom, List.reverse_nil, dfsLoop] at h
    cases h
    exact ⟨hinv, fun q hq => hperm q hq (Nat.zero_le _)⟩
  | succ j ih =>
    intro st st' hj hperm hinv h
    have hjlt : j < nodes.length := hj
    rw [indexFrom_take_succ hjlt, List.reverse_append, List.reverse_singleton,
      List.singleton_append] at h
    simp only [dfsLoop] at h
    split at h
    · rename_i st1 hv
      have hUinj : ∀ a ∈ indexFrom 0 nodes, ∀ b ∈ indexFrom 0 nodes,
          a.1 = b.1 → a = b := fun a ha b hb hab => indexFrom_inj ha hb hab
      have hpU : ((j, nodes.get ⟨j, hjlt⟩) : INode) ∈ indexFrom 0 nodes := by
        have := indexFrom_get hjlt 0
        simpa using this
      have hloser : ¬ IsWinner (indexFrom 0 nodes) (j, nodes.get ⟨j, hjlt⟩) →
          ∃ q, umapGet (indexFrom 0 nodes) (j, nodes.get ⟨j, hjlt⟩).2.id
            = some q ∧ q ∈ st.sortedNodes := by
        intro hnw
        obtain ⟨q, hq⟩ := mem_umapGet hpU
        have hge : j ≤ q.1 := winner_idx_ge hpU hq
        have hne : q ≠ ((j, nodes.get ⟨j, hjlt⟩) : INode) := by
          intro heq
          rw [heq] at hq
          exact hnw hq
        have hgt : j + 1 ≤ q.1 := by
          rcases Nat.lt_or_ge j q.1 with hlt | hge2
          · omega
          · have hq1 : q.1 = j := by omega
            exact absurd (indexFrom_inj (umapGet_mem hq) hpU hq1) hne
        have hqperm : q.1 ∈ st.permanentlyMarked :=
          hperm q (umapGet_mem hq) hgt
        exact ⟨q, hq, perm_to_sorted hUinj hinv (umapGet_mem hq) hqperm⟩
      obtain ⟨hinv1, hpost1⟩ := visit_post hUinj hpU hloser hinv hv
      refine ih (le_of_lt hjlt) ?_ hinv1 h
      intro q hq hjq
      rcases Nat.lt_or_ge q.1 (j + 1) with hlt | hge2
      · have hq1 : q.1 = j := by omega
        rw [hq1]
        exact hpost1.self
      · exact hpost1.permMono (hperm q hq hge2)
    · exact DfsOutcome.noConfusion h
    · exact DfsOutcome.noConfusion h

theorem runDFS_ok_post {existing newNodes : List Node} {sk : List NodeId}
    {sorted : List INode}
    (h : runDFS existing newNodes sk = .ok sorted) :
    ∃ L : List INode,
      sorted = L.filter (fun p => existing.length ≤ p.1) ∧
      GoodSorted (indexFrom 0 (existing ++ newNodes)) L ∧
      WinnerLast (indexFrom 0 (existing ++ newNodes)) L ∧
      (L.map Prod.fst).Nodup ∧
      (∀ p ∈ L, p ∈ indexFrom 0 (existing ++ newNodes)) ∧
      (∀ q ∈ indexFrom 0 (existing ++ newNodes), q ∈ L) := by
  simp only [runDFS] at h
  split at h
  · rename_i stF hloop
    have hinv0 : DfsInv (indexFrom 0 (existing ++ newNodes)) ⟨[], [], []⟩ := by
      refine ⟨rfl, by simp, by simp, ?_, ?_⟩
      · intro l1 p l2 hdec
        exact absurd hdec (by simp)
      · intro l1 p l2 hdec
        exact absurd hdec (by simp)
    have hloop' : dfsLoop (umapGet (indexFrom 0 (existing ++ newNodes))) sk
        ((indexFrom 0 (existing ++ newNodes)).length + 1)
        ((indexFrom 0 ((existing ++ newNodes).take
          (existing ++ newNodes).length)).reverse) ⟨[], [], []⟩ = .ok stF := by
      rw [List.take_length]
      exact hloop
    obtain ⟨hinvF, hallF⟩ := dfsLoop_post (le_refl _)
      (fun q hq hge => absurd ((mem_indexFrom_bounds hq).2) (by omega))
      hinv0 hloop'
    cases h
    have hUinj : ∀ a ∈ indexFrom 0 (existing ++ newNodes),
        ∀ b ∈ indexFrom 0 (existing ++ newNodes), a.1 = b.1 → a = b :=
      fun a ha b hb hab => indexFrom_inj ha hb hab
    exact ⟨stF.sortedNodes, rfl, hinvF.good, hinvF.winner, hinvF.nodupIdx,
      hinvF.elems,
      fun q hq => perm_to_sorted hUinj hinvF hq (hallF q hq)⟩
  · exact DfsOutcome.noConfusion h
  · exact DfsOutcome.noConfusion h

/-! ## Relating the committed store to the traversal map -/

theorem mapGet_map_overwrite_ne {s : Store} {k' k : NodeId} {v : Node}
    (hk : k' ≠ k) :
    mapGet (s.map (fun p => if p.1 = k' then (k', v) else p)) k
      = mapGet s k := by
  induction s with
  | nil => rfl
  | cons p rest ih =>
    obtain ⟨k0, v0⟩ := p
    simp only [List.map_cons]
    by_cases h0 : k0 = k'
    · have hhead : (if ((k0, v0) : NodeId × Node).1 = k' then (k', v)
          else (k0, v0)) = (k', v) := by simp [h0]
      have hne : k0 ≠ k := fun hh => hk (h0.symm.trans hh)
      rw [hhead, mapGet, mapGet, if_neg hk, if_neg hne]
      exact ih
    · have hhead : (if ((k0, v0) : NodeId × Node).1 = k' then (k', v)
          else (k0, v0)) = (k0, v0) := by simp [h0]
      rw [hhead, mapGet, mapGet]
      by_cases hk0 : k0 = k
      · rw [if_pos hk0, if_pos hk0]
      · rw [if_neg hk0, if_neg hk0]
        exact ih

theorem mapGet_map_overwrite_eq {s : Store} {k' : NodeId} {v : Node}
    (hhas : mapHas s k' = true) :
    mapGet (s.map (fun p => if p.1 = k' then (k', v) else p)) k'
      = some v := by
  induction s with
  | nil => simp [mapHas] at hhas
  | cons p rest ih =>
    obtain ⟨k0, v0⟩ := p
    simp only [List.map_cons]
    by_cases h0 : k0 = k'
    · have hhead : (if ((k0, v0) : NodeId × Node).1 = k' then (k', v)
          else (k0, v0)) = (k', v) := by simp [h0]
      rw [hhead, mapGet, if_pos rfl]
    · have hhead : (if ((k0, v0) : NodeId × Node).1 = k' then (k', v)
          else (k0, v0)) = (k0, v0) := by simp [h0]
      rw [hhead, mapGet, if_neg h0]
      apply ih
      simp only [mapHas, List.any_cons] at hhas
      rcases Bool.or_eq_true .. ▸ hhas with h1 | h2
      · exact absurd (by simpa using h1) h0
      · exact h2

theorem mapGet_append_first (s t : Store) (k : NodeId) :
    mapGet (s ++ t) k
      = match mapGet s k with
        | some v => some v
        | none => mapGet t k := by
  induction s with
  | nil => simp [mapGet]
  | cons p rest ih =>
    obtain ⟨k0, v0⟩ := p
    by_cases hk0 : k0 = k
    · simp [mapGet, hk0]
    · simp only [List.cons_append, mapGet, if_neg hk0]
      exact ih

theorem mapGet_mapSet (s : Store) (k' k : NodeId) (v : Node) :
    mapGet (mapSet s k' v) k = if k' = k then some v else mapGet s k := by
  unfold mapSet
  by_cases hhas : mapHas s k'
  · rw [if_pos hhas]
    by_cases hk : k' = k
    · subst hk
      rw [if_pos rfl]
      exact mapGet_map_overwrite_eq hhas
    · rw [if_neg hk]
      exact mapGet_map_overwrite_ne hk
  · rw [if_neg hhas, mapGet_append_first]
    by_cases hk : k' = k
    · subst hk
      have hnone : mapGet s k' = none := by
        rw [mapGet_eq_none_iff]
        intro p hp hpk
        apply hhas
        unfold mapHas
        rw [List.any_eq_true]
        exact ⟨p, hp, by simpa using hpk⟩
      rw [hnone, if_pos rfl]
      rw [mapGet, if_pos rfl]
    · rw [if_neg hk]
      cases hg : mapGet s k with
      | some v0 => rfl
      | none =>
        simp only
        rw [mapGet, if_neg hk]
        rfl

theorem mapGet_foldl_mapSet (l : List Node) (s : Store) (k : NodeId) :
    mapGet (l.foldl (fun s n => mapSet s n.id n) s) k
      = match valueGetLast l k with
        | some n => some n
        | none => mapGet s k := by
  induction l generalizing s with
  | nil => simp [valueGetLast]
  | cons n rest ih =>
    rw [List.foldl_cons, ih, valueGetLast]
    cases hr : valueGetLast rest k with
    | some m => simp
    | none =>
      simp only
      by_cases hk : n.id = k
      · rw [if_pos hk, mapGet_mapSet, if_pos hk]
      · rw [if_neg hk, mapGet_mapSet, if_neg hk]

theorem mapGet_eq_valueGetLast :
    ∀ {s : Store}, WfStore s → KeysNodup s → ∀ k,
      mapGet s k = valueGetLast (s.map Prod.snd) k := by
  intro s
  induction s with
  | nil =>
    intro _ _ k
    rfl
  | cons p rest ih =>
    intro hw hn k
    obtain ⟨k0, v0⟩ := p
    have hw0 : k0 = v0.id := hw (k0, v0) (List.mem_cons_self ..)
    have hwr : WfStore rest := fun q hq => hw q (List.mem_cons_of_mem _ hq)
    have hnr : KeysNodup rest := (List.nodup_cons.mp hn).2
    have hk0 : k0 ∉ rest.map Prod.fst := (List.nodup_cons.mp hn).1
    by_cases hk : k0 = k
    · subst hk
      have h1 : mapGet ((k0, v0) :: rest) k0 = some v0 := by
        rw [mapGet, if_pos rfl]
      have hnone : valueGetLast (rest.map Prod.snd) k0 = none := by
        rw [valueGetLast_eq_none_iff]
        intro a ha
        obtain ⟨q, hq, rfl⟩ := List.mem_map.mp ha
        intro hid
        exact hk0 (List.mem_map.mpr ⟨q, hq, (hwr q hq).trans hid⟩)
      rw [h1, List.map_cons, valueGetLast, hnone]
      rw [if_pos hw0.symm]
    · have h1 : mapGet ((k0, v0) :: rest) k = mapGet rest k := by
        rw [mapGet, if_neg hk]
      rw [h1, ih hwr hnr, List.map_cons, valueGetLast]
      cases hr : valueGetLast (rest.map Prod.snd) k with
      | some m => rfl
      | none =>
        have hne : v0.id ≠ k := fun h => hk (hw0.trans h)
        simp [hne]

theorem mem_candidate_part {A B : List Node} {p : INode}
    (hp : p ∈ indexFrom 0 (A ++ B)) (hge : A.length ≤ p.1) : p.2 ∈ B := by
  rw [indexFrom_append] at hp
  rcases List.mem_append.mp hp with h1 | h2
  · have := (mem_indexFrom_bounds h1).2
    omega
  · exact snd_mem_of_mem_indexFrom h2

theorem nodup_split_not_mem {L l1 l2 : List INode} {w : INode}
    (hnodup : (L.map Prod.fst).Nodup) (hdec : L = l1 ++ w :: l2) :
    w.1 ∉ l2.map Prod.fst := by
  rw [hdec, List.map_append, List.map_cons] at hnodup
  have hsub : (w.1 :: l2.map Prod.fst).Nodup :=
    (List.nodup_append.mp hnodup).2.1
  exact (List.nodup_cons.mp hsub).1

theorem committed_winner_last {A B : List Node} {L : List INode} {k : NodeId}
    {w : INode}
    (hwin : WinnerLast (indexFrom 0 (A ++ B)) L)
    (hnodup : (L.map Prod.fst).Nodup)
    (hall : ∀ q ∈ indexFrom 0 (A ++ B), q ∈ L)
    (hw : umapGet (indexFrom 0 (A ++ B)) k = some w)
    (hwE : A.length ≤ w.1) :
    valueGetLast ((L.filter (fun p => A.length ≤ p.1)).map Prod.snd) k
      = some w.2 := by
  obtain ⟨l1, l2, hdec⟩ := List.append_of_mem (hall w (umapGet_mem hw))
  have hwnotl2 : w.1 ∉ l2.map Prod.fst := nodup_split_not_mem hnodup hdec
  have hfilter : L.filter (fun p => decide (A.length ≤ p.1))
      = l1.filter (fun p => decide (A.length ≤ p.1))
        ++ w :: l2.filter (fun p => decide (A.length ≤ p.1)) := by
    rw [hdec, List.filter_append, List.filter_cons, if_pos (by simpa using hwE)]
  rw [hfilter, List.map_append, List.map_cons, valueGetLast_append]
  have htail : ∀ a ∈ (l2.filter (fun p => decide (A.length ≤ p.1))).map
      Prod.snd, a.id ≠ k := by
    intro a ha hak
    obtain ⟨q, hq, rfl⟩ := List.mem_map.mp ha
    have hql2 : q ∈ l2 := (List.mem_filter.mp hq).1
    by_cases hqw : q = w
    · apply hwnotl2
      rw [← hqw]
      exact List.mem_map.mpr ⟨q, hql2, rfl⟩
    · have hnw : ¬ IsWinner (indexFrom 0 (A ++ B)) q := by
        unfold IsWinner
        rw [hak, hw]
        intro hc
        exact hqw (Option.some.injEq .. ▸ hc).symm
      obtain ⟨l2a, l2b, hdec2⟩ := List.append_of_mem hql2
      have hdec' : L = (l1 ++ w :: l2a) ++ q :: l2b := by
        rw [hdec, hdec2]
        simp
      obtain ⟨w', hw', hw'mem⟩ := hwin _ q _ hdec' hnw
      rw [hak, hw] at hw'
      have hww' : w' = w := (Option.some.injEq .. ▸ hw').symm
      apply hwnotl2
      rw [← hww']
      refine List.mem_map.mpr ⟨w', ?_, rfl⟩
      rw [hdec2]
      exact List.mem_append_right _ (List.mem_cons_of_mem _ hw'mem)
  have hwid : w.2.id = k := umapGet_id hw
  have htail_none : valueGetLast
      (w.2 :: (l2.filter (fun p => decide (A.length ≤ p.1))).map Prod.snd) k
      = some w.2 := by
    rw [valueGetLast]
    have h2 : valueGetLast ((l2.filter
        (fun p => decide (A.length ≤ p.1))).map Prod.snd) k = none :=
      (valueGetLast_eq_none_iff ..).mpr htail
    rw [h2, if_pos hwid]
  rw [htail_none]

theorem committed_no_candidate {A B : List Node} {L : List INode}
    {k : NodeId}
    (helems : ∀ p ∈ L, p ∈ indexFrom 0 (A ++ B))
    (hnoc : ∀ n ∈ B, n.id ≠ k) :
    valueGetLast ((L.filter (fun p => A.length ≤ p.1)).map Prod.snd) k
      = none := by
  rw [valueGetLast_eq_none_iff]
  intro a ha
  obtain ⟨q, hq, rfl⟩ := List.mem_map.mp ha
  obtain ⟨hqL, hqge⟩ := List.mem_filter.mp hq
  exact hnoc q.2 (mem_candidate_part (helems q hqL) (by simpa using hqge))

theorem valueGetLast_mem_id {l : List Node} {k : NodeId} {m : Node}
    (h : valueGetLast l k = some m) : m ∈ l ∧ m.id = k := by
  induction l with
  | nil => simp [valueGetLast] at h
  | cons n rest ih =>
    rw [valueGetLast] at h
    cases hr : valueGetLast rest k with
    | some m0 =>
      rw [hr] at h
      cases h
      exact ⟨List.mem_cons_of_mem _ (ih hr).1, (ih hr).2⟩
    | none =>
      rw [hr] at h
      by_cases hid : n.id = k
      · rw [if_pos hid] at h
        cases h
        exact ⟨List.mem_cons_self .., hid⟩
      · rw [if_neg hid] at h
        cases h

/-- The committed store of a successful `addNode` resolves every id exactly
like the traversal map: to the LAST node with that id across the old store
values followed by the batch. -/
theorem addNode_store_get {s : Store} {ns : List Node}
    (hw : WfStore s) (hn : KeysNodup s)
    (hok : (addNode s ns).error = none) (k : NodeId) :
    mapGet (addNode s ns).store k
      = valueGetLast (s.map Prod.snd ++ ns) k := by
  by_cases hni : ns.isEmpty
  · have hnsnil : ns = [] := List.isEmpty_iff.mp hni
    subst hnsnil
    have hstore : (addNode s []).store = s := rfl
    rw [hstore, List.append_nil]
    exact mapGet_eq_valueGetLast hw hn k
  · obtain ⟨sorted, hdfs, hstore, _⟩ := addNode_ok_dfs s ns hni hok
    obtain ⟨L, hsorted, hgood, hwin, hnodup, helems, hall⟩ :=
      runDFS_ok_post hdfs
    rw [hstore, hsorted, mapGet_foldl_mapSet]
    have hcorr := umapGet_valueGetLast (s.map Prod.snd ++ ns) 0 k
    cases hu : umapGet (indexFrom 0 (s.map Prod.snd ++ ns)) k with
    | none =>
      rw [hu] at hcorr
      have hvnone : valueGetLast (s.map Prod.snd ++ ns) k = none :=
        hcorr.symm
      have hnoc : ∀ n ∈ ns, n.id ≠ k := by
        intro n hn0 hnk
        rw [valueGetLast_eq_none_iff] at hvnone
        exact hvnone n (List.mem_append_right _ hn0) hnk
      have hc := committed_no_candidate helems hnoc
      rw [hc, hvnone]
      rw [mapGet_eq_valueGetLast hw hn k]
      rw [valueGetLast_append] at hvnone
      cases hns : valueGetLast ns k with
      | some m =>
        rw [hns] at hvnone
        exact Option.noConfusion hvnone
      | none =>
        rw [hns] at hvnone
        exact hvnone
    | some w =>
      rw [hu] at hcorr
      have hval : valueGetLast (s.map Prod.snd ++ ns) k = some w.2 :=
        hcorr.symm
      cases hns : valueGetLast ns k with
      | some m =>
        have hm := valueGetLast_mem_id hns
        obtain ⟨i0, hi0⟩ :=
          mem_indexFrom_of_mem hm.1 (s.map Prod.snd).length
        have hi0ge : (s.map Prod.snd).length ≤ i0 :=
          (mem_indexFrom_bounds hi0).1
        have hi0U : ((i0, m) : INode)
            ∈ indexFrom 0 (s.map Prod.snd ++ ns) := by
          rw [indexFrom_append]
          exact List.mem_append_right _ (by simpa using hi0)
        have hidm : (((i0, m) : INode)).2.id = k := hm.2
        have hle : i0 ≤ w.1 := by
          have := winner_idx_ge hi0U (by rw [hidm]; exact hu)
          exact this
        have hwE : (s.map Prod.snd).length ≤ w.1 := le_trans hi0ge hle
        have hc := committed_winner_last hwin hnodup hall hu hwE
        rw [hc, hval]
      | none =>
        have hnoc : ∀ n ∈ ns, n.id ≠ k := by
          rw [← valueGetLast_eq_none_iff]
          exact hns
        have hc := committed_no_candidate helems hnoc
        rw [hc, mapGet_eq_valueGetLast hw hn k, valueGetLast_append, hns]

/-! ## Acyclicity of the committed store -/

theorem posIn_append_not_mem {l1 : List Nat} {j : Nat} (h : j ∉ l1)
    (l2 : List Nat) : posIn (l1 ++ l2) j = l1.length + posIn l2 j := by
  induction l1 with
  | nil => simp [posIn]
  | cons i rest ih =>
    have hij : i ≠ j := fun hc => h (hc ▸ List.mem_cons_self ..)
    rw [List.cons_append, posIn, if_neg hij,
      ih (fun hc => h (List.mem_cons_of_mem _ hc))]
    simp only [List.length_cons]
    omega

theorem posIn_cons_self (l : List Nat) (j : Nat) :
    posIn (j :: l) j = 0 := by
  rw [posIn, if_pos rfl]

theorem rank_increase {L l1 l2 : List INode} {p q : INode}
    (hnodup : (L.map Prod.fst).Nodup) (hdec : L = l1 ++ p :: l2)
    (hq : q ∈ l2) :
    posIn (L.map Prod.fst) p.1 < posIn (L.map Prod.fst) q.1 := by
  have hmap : L.map Prod.fst
      = l1.map Prod.fst ++ p.1 :: l2.map Prod.fst := by
    rw [hdec, List.map_append, List.map_cons]
  rw [hmap] at hnodup ⊢
  obtain ⟨hn1, hn2, hdisj⟩ := List.nodup_append.mp hnodup
  have hq2 : q.1 ∈ l2.map Prod.fst := List.mem_map.mpr ⟨q, hq, rfl⟩
  have hpn1 : p.1 ∉ l1.map Prod.fst := fun hc =>
    hdisj hc (List.mem_cons_self ..)
  have hqn1 : q.1 ∉ l1.map Prod.fst := fun hc =>
    hdisj hc (List.mem_cons_of_mem _ hq2)
  have hpq : p.1 ≠ q.1 := by
    intro hc
    exact (List.nodup_cons.mp hn2).1 (hc ▸ hq2)
  rw [posIn_append_not_mem hpn1, posIn_append_not_mem hqn1,
    posIn_cons_self, posIn, if_neg hpq]
  omega

theorem addNode_acyclic {s : Store} {ns : List Node}
    (hw : WfStore s) (hn : KeysNodup s) (hni : ¬ ns.isEmpty)
    (hok : (addNode s ns).error = none) :
    Acyclic (addNode s ns).store := by
  obtain ⟨sorted, hdfs, hstore, _⟩ := addNode_ok_dfs s ns hni hok
  obtain ⟨L, hsorted, hgood, hwin, hnodup, helems, hall⟩ :=
    runDFS_ok_post hdfs
  intro a hcyc
  have hstep : ∀ x y, Step (addNode s ns).store x y →
      ∃ wx wy, umapGet (indexFrom 0 (s.map Prod.snd ++ ns)) x = some wx ∧
        umapGet (indexFrom 0 (s.map Prod.snd ++ ns)) y = some wy ∧
        posIn (L.map Prod.fst) wx.1 < posIn (L.map Prod.fst) wy.1 := by
    intro x y hxy
    obtain ⟨n, hgetn, hyn⟩ := hxy
    rw [addNode_store_get hw hn hok] at hgetn
    have hcorr := umapGet_valueGetLast (s.map Prod.snd ++ ns) 0 x
    cases hu : umapGet (indexFrom 0 (s.map Prod.snd ++ ns)) x with
    | none =>
      rw [hu, hgetn] at hcorr
      exact Option.noConfusion hcorr
    | some wx =>
      rw [hu, hgetn] at hcorr
      have hwx2 : wx.2 = n := by simpa using hcorr
      have hwxL : wx ∈ L := hall wx (umapGet_mem hu)
      obtain ⟨l1, l2, hdec⟩ := List.append_of_mem hwxL
      obtain ⟨wy, hwy, hwyl2⟩ := hgood l1 wx l2 hdec y (hwx2 ▸ hyn)
      exact ⟨wx, wy, rfl, hwy, rank_increase hnodup hdec hwyl2⟩
  have hmono : ∀ x y, Relation.TransGen (Step (addNode s ns).store) x y →
      ∃ wx wy, umapGet (indexFrom 0 (s.map Prod.snd ++ ns)) x = some wx ∧
        umapGet (indexFrom 0 (s.map Prod.snd ++ ns)) y = some wy ∧
        posIn (L.map Prod.fst) wx.1 < posIn (L.map Prod.fst) wy.1 := by
    intro x y hxy
    induction hxy with
    | single h1 => exact hstep _ _ h1
    | tail h1 h2 ih =>
      obtain ⟨wx, wb, hwx, hwb, hlt1⟩ := ih
      obtain ⟨wb', wy, hwb', hwy, hlt2⟩ := hstep _ _ h2
      rw [hwb'] at hwb
      cases hwb
      exact ⟨wx, wy, hwx, hwy, lt_trans hlt1 hlt2⟩
  obtain ⟨wa, wa', hwa, hwa', hlt⟩ := hmono a a hcyc
  rw [hwa] at hwa'
  cases hwa'
  exact lt_irrefl _ hlt

/-! ## No dangling dependencies after a successful batch -/

theorem mem_mapSet {s : Store} {k : NodeId} {v : Node} {p : NodeId × Node}
    (h : p ∈ mapSet s k v) : p ∈ s ∨ p = (k, v) := by
  unfold mapSet at h
  by_cases hhas : mapHas s k
  · rw [if_pos hhas] at h
    obtain ⟨p0, hp0, hfp⟩ := List.mem_map.mp h
    by_cases h0 : p0.1 = k
    · right
      rw [if_pos h0] at hfp
      exact hfp.symm
    · left
      rw [if_neg h0] at hfp
      rw [← hfp]
      exact hp0
  · rw [if_neg hhas] at h
    rcases List.mem_append.mp h with h1 | h2
    · exact .inl h1
    · exact .inr (by simpa using h2)

theorem mem_foldl_mapSet {l : List Node} :
    ∀ {s : Store} {p : NodeId × Node},
      p ∈ l.foldl (fun s n => mapSet s n.id n) s →
      p ∈ s ∨ ∃ n ∈ l, p = (n.id, n) := by
  induction l with
  | nil =>
    intro s p h
    exact .inl h
  | cons n rest ih =>
    intro s p h
    rcases ih h with h1 | ⟨m, hm, rfl⟩
    · rcases mem_mapSet h1 with h2 | rfl
      · exact .inl h2
      · exact .inr ⟨n, List.mem_cons_self .., rfl⟩
    · exact .inr ⟨m, List.mem_cons_of_mem _ hm, rfl⟩

theorem noDangling_of_addNode_ok {s : Store} {ns : List Node}
    (hw : WfStore s) (hn : KeysNodup s) (hni : ¬ ns.isEmpty)
    (hok : (addNode s ns).error = none) :
    NoDangling (addNode s ns).store := by
  obtain ⟨sorted, hdfs, hstore, _⟩ := addNode_ok_dfs s ns hni hok
  obtain ⟨L, hsorted, hgood, hwin, hnodup, helems, hall⟩ :=
    runDFS_ok_post hdfs
  intro p hp d hd
  have hp' := hp
  rw [hstore, hsorted] at hp'
  have hval : p.2 ∈ s.map Prod.snd ++ ns := by
    rcases mem_foldl_mapSet hp' with h1 | ⟨m, hm, rfl⟩
    · exact List.mem_append_left _ (List.mem_map.mpr ⟨p, h1, rfl⟩)
    · obtain ⟨q, hq, rfl⟩ := List.mem_map.mp hm
      exact snd_mem_of_mem_indexFrom (helems q (List.mem_filter.mp hq).1)
  obtain ⟨i, hiU⟩ := mem_indexFrom_of_mem hval 0
  have hiL := hall _ hiU
  obtain ⟨l1, l2, hdec⟩ := List.append_of_mem hiL
  obtain ⟨wd, hwd, _⟩ := hgood l1 _ l2 hdec d hd
  rw [addNode_store_get hw hn hok d]
  have hcorr := umapGet_valueGetLast (s.map Prod.snd ++ ns) 0 d
  rw [hwd] at hcorr
  rw [← hcorr]
  simp

/-! ## Preservation of well-formedness, key uniqueness and acyclicity -/

theorem addNode_error_store_eq (s : Store) (ns : List Node) (e : GraphError)
    (h : (addNode s ns).error = some e) : (addNode s ns).store = s := by
  unfold addNode at *
  by_cases hni : ns.isEmpty
  · simp [hni] at h
  · rw [if_neg hni] at *
    cases hr : runDFS (s.map Prod.snd) ns (s.map Prod.fst) with
    | ok sorted =>
      rw [hr] at h
      simp at h
    | threw e' => rfl
    | fuelOut => rfl

theorem wf_mapSet {s : Store} {n : Node} (hw : WfStore s) :
    WfStore (mapSet s n.id n) := by
  intro p hp
  rcases mem_mapSet hp with h1 | rfl
  · exact hw p h1
  · rfl

theorem nodup_mapSet {s : Store} {k : NodeId} {v : Node}
    (hn : KeysNodup s) : KeysNodup (mapSet s k v) := by
  unfold mapSet KeysNodup
  by_cases hhas : mapHas s k
  · rw [if_pos hhas]
    have hkeys : (s.map (fun p => if p.1 = k then (k, v) else p)).map
        Prod.fst = s.map Prod.fst := by
      rw [List.map_map]
      apply List.map_congr_left
      intro p _
      by_cases h0 : p.1 = k
      · simp [Function.comp, h0]
      · simp [Function.comp, h0]
    rw [hkeys]
    exact hn
  · rw [if_neg hhas, List.map_append]
    refine List.nodup_append.mpr ⟨hn, by simp, ?_⟩
    intro a ha hb
    have hak : a = k := by simpa using hb
    subst hak
    obtain ⟨p, hp, hpk⟩ := List.mem_map.mp ha
    apply hhas
    unfold mapHas
    rw [List.any_eq_true]
    exact ⟨p, hp, by simpa using hpk⟩

theorem wf_foldl_mapSet {l : List Node} :
    ∀ {s : Store}, WfStore s →
      WfStore (l.foldl (fun s n => mapSet s n.id n) s) := by
  induction l with
  | nil => exact fun hw => hw
  | cons n rest ih =>
    intro s hw
    exact ih (wf_mapSet hw)

theorem nodup_foldl_mapSet {l : List Node} :
    ∀ {s : Store}, KeysNodup s →
      KeysNodup (l.foldl (fun s n => mapSet s n.id n) s) := by
  induction l with
  | nil => exact fun hn => hn
  | cons n rest ih =>
    intro s hn
    exact ih (nodup_mapSet hn)

theorem wf_mapDelete {s : Store} {k : NodeId} (hw : WfStore s) :
    WfStore (mapDelete s k) :=
  fun p hp => hw p (List.mem_of_mem_filter hp)

theorem nodup_mapDelete {s : Store} {k : NodeId} (hn : KeysNodup s) :
    KeysNodup (mapDelete s k) :=
  ((List.filter_sublist s).map Prod.fst).nodup hn

theorem wf_foldl_mapDelete {l : List Node} :
    ∀ {s : Store}, WfStore s →
      WfStore (l.foldl (fun s n => mapDelete s n.id) s) := by
  induction l with
  | nil => exact fun hw => hw
  | cons n rest ih =>
    intro s hw
    exact ih (wf_mapDelete hw)

theorem nodup_foldl_mapDelete {l : List Node} :
    ∀ {s : Store}, KeysNodup s →
      KeysNodup (l.foldl (fun s n => mapDelete s n.id) s) := by
  induction l with
  | nil => exact fun hn => hn
  | cons n rest ih =>
    intro s hn
    exact ih (nodup_mapDelete hn)

theorem addNode_store_cases (s : Store) (ns : List Node) :
    (addNode s ns).store = s ∨
    ∃ l : List Node,
      (addNode s ns).store = l.foldl (fun s n => mapSet s n.id n) s := by
  unfold addNode
  by_cases hni : ns.isEmpty
  · rw [if_pos hni]
    exact .inl rfl
  · rw [if_neg hni]
    cases runDFS (s.map Prod.snd) ns (s.map Prod.fst) with
    | ok sorted => exact .inr ⟨sorted.map Prod.snd, rfl⟩
    | threw e => exact .inl rfl
    | fuelOut => exact .inl rfl

theorem removeNode_store_shape (s : Store) (ids : List NodeId) :
    ∃ l1 l2 : List Node,
      (removeNode s ids).store
        = l2.foldl (fun s n => mapDelete s n.id)
            (l1.foldl (fun s n => mapDelete s n.id) s) :=
  ⟨flatMapJS ((s.map Prod.snd).filter (fun n => ids.contains n.id))
      (fun dependency => (s.map Prod.snd).filter
        (fun node => node.deps.contains dependency.id)),
    (s.map Prod.snd).filter (fun n => ids.contains n.id), rfl⟩

theorem reachable_wf {s : Store} (h : Reachable s) : WfStore s := by
  induction h with
  | empty => exact fun p hp => absurd hp (List.not_mem_nil p)
  | addStep s ns hs ih =>
    rcases addNode_store_cases s ns with heq | ⟨l, heq⟩
    · rw [heq]
      exact ih
    · rw [heq]
      exact wf_foldl_mapSet ih
  | removeStep s ids hs ih =>
    obtain ⟨l1, l2, heq⟩ := removeNode_store_shape s ids
    rw [heq]
    exact wf_foldl_mapDelete (wf_foldl_mapDelete ih)
  | replaceStep s ns hs ih => exact ih

theorem reachable_nodup {s : Store} (h : Reachable s) : KeysNodup s := by
  induction h with
  | empty => exact List.nodup_nil
  | addStep s ns hs ih =>
    rcases addNode_store_cases s ns with heq | ⟨l, heq⟩
    · rw [heq]
      exact ih
    · rw [heq]
      exact nodup_foldl_mapSet ih
  | removeStep s ids hs ih =>
    obtain ⟨l1, l2, heq⟩ := removeNode_store_shape s ids
    rw [heq]
    exact nodup_foldl_mapDelete (nodup_foldl_mapDelete ih)
  | replaceStep s ns hs ih => exact ih

theorem removeNode_get_mono {s : Store} {ids : List NodeId} {k : NodeId}
    {n : Node} (h : mapGet (removeNode s ids).store k = some n) :
    mapGet s k = some n := by
  obtain ⟨l1, l2, heq⟩ := removeNode_store_shape s ids
  rw [heq, mapGet_foldl_delete, mapGet_foldl_delete] at h
  by_cases h2 : l2.any (fun m => m.id = k) = true
  · rw [if_pos h2] at h
    exact Option.noConfusion h
  · rw [if_neg h2] at h
    by_cases h1 : l1.any (fun m => m.id = k) = true
    · rw [if_pos h1] at h
      exact Option.noConfusion h
    · rw [if_neg h1] at h
      exact h

theorem acyclic_mono {s t : Store}
    (hsub : ∀ a b, Step t a b → Step s a b) (hs : Acyclic s) : Acyclic t :=
  fun a hcyc => hs a (Relation.TransGen.mono hsub hcyc)

theorem reachable_acyclic {s : Store} (h : Reachable s) : Acyclic s := by
  induction h with
  | empty =>
    intro a hcyc
    cases hcyc with
    | single h1 =>
      obtain ⟨n, hget, _⟩ := h1
      exact Option.noConfusion hget
    | tail h1 h2 =>
      obtain ⟨n, hget, _⟩ := h2
      exact Option.noConfusion hget
  | addStep s ns hs ih =>
    cases herr : (addNode s ns).error with
    | some e =>
      rw [addNode_error_store_eq s ns e herr]
      exact ih
    | none =>
      by_cases hni : ns.isEmpty
      · have hnsnil : ns = [] := List.isEmpty_iff.mp hni
        subst hnsnil
        have hstore : (addNode s []).store = s := rfl
        rw [hstore]
        exact ih
      · exact addNode_acyclic (reachable_wf hs) (reachable_nodup hs)
          hni herr
  | removeStep s ids hs ih =>
    refine acyclic_mono ?_ ih
    intro a b ⟨n, hget, hb⟩
    exact ⟨n, removeNode_get_mono hget, hb⟩
  | replaceStep s ns hs ih => exact ih

/-! ## Classification of thrown errors -/

theorem indexFrom_map_snd (l : List Node) (k : Nat) :
    (indexFrom k l).map Prod.snd = l := by
  induction l generalizing k with
  | nil => rfl
  | cons n rest ih => simp [indexFrom, ih]

theorem visitDeps_threw_shape {U : List INode} {sk : List NodeId}
    {visitF : INode → DfsState → DfsOutcome DfsState} {n : Node}
    (hF : ∀ d q st1 e1, umapGet U d = some q →
      visitF q st1 = .threw e1 → ThrownShape U sk e1)
    (hn0 : n ∈ U.map Prod.snd) :
    ∀ {ds : List NodeId} {st : DfsState} {e : GraphError},
      (∀ d ∈ ds, d ∈ n.deps) →
      visitDeps (umapGet U) sk visitF n ds st = .threw e →
      ThrownShape U sk e := by
  intro ds
  induction ds with
  | nil =>
    intro st e _ h
    simp [visitDeps] at h
  | cons d rest ih =>
    intro st e hds h
    simp only [visitDeps] at h
    split at h
    · rename_i q hm
      split at h
      · rename_i st1 hv
        exact ih (fun d0 hd0 => hds d0 (List.mem_cons_of_mem _ hd0)) h
      · rename_i e1 hv
        cases h
        exact hF d q st _ hm hv
      · exact DfsOutcome.noConfusion h
    · rename_i hm
      cases h
      exact .inr ⟨n, hn0, ⟨d, hds d (List.mem_cons_self ..), hm⟩, rfl⟩

theorem visit_threw_shape {U : List INode} {sk : List NodeId} :
    ∀ {fuel : Nat} {p : INode} {st : DfsState} {e : GraphError}, p ∈ U →
      visit (umapGet U) sk fuel p st = .threw e → ThrownShape U sk e := by
  intro fuel
  induction fuel with
  | zero =>
    intro p st e _ h
    simp [visit] at h
  | succ fuel ih =>
    intro p st e hp h
    simp only [visit] at h
    split at h
    · exact DfsOutcome.noConfusion h
    · split at h
      · cases h
        exact .inl ⟨p.2.id, rfl⟩
      · split at h
        · exact DfsOutcome.noConfusion h
        · rename_i e1 hd
          cases h
          exact visitDeps_threw_shape
            (fun d q st1 e2 hm hv => ih (umapGet_mem hm) hv)
            (List.mem_map.mpr ⟨p, hp, rfl⟩) (fun d0 hd0 => hd0) hd
        · exact DfsOutcome.noConfusion h

theorem dfsLoop_threw_shape {U : List INode} {sk : List NodeId}
    {fuel : Nat} :
    ∀ {l : List INode} {st : DfsState} {e : GraphError}, (∀ q ∈ l, q ∈ U) →
      dfsLoop (umapGet U) sk fuel l st = .threw e → ThrownShape U sk e := by
  intro l
  induction l with
  | nil =>
    intro st e _ h
    simp [dfsLoop] at h
  | cons p rest ih =>
    intro st e hl h
    simp only [dfsLoop] at h
    split at h
    · exact ih (fun q hq => hl q (List.mem_cons_of_mem _ hq)) h
    · rename_i e1 hv
      cases h
      exact visit_threw_shape (hl p (List.mem_cons_self ..)) hv
    · exact DfsOutcome.noConfusion h

theorem runDFS_threw_shape {existing newNodes : List Node}
    {sk : List NodeId} {e : GraphError}
    (h : runDFS existing newNodes sk = .threw e) :
    ThrownShape (indexFrom 0 (existing ++ newNodes)) sk e := by
  simp only [runDFS] at h
  split at h
  · exact DfsOutcome.noConfusion h
  · rename_i e1 hloop
    cases h
    exact dfsLoop_threw_shape (fun q hq => List.mem_reverse.mp hq) hloop
  · exact DfsOutcome.noConfusion h

/-! ## C5 amended: the store is always acyclic, and cycle-introducing
batches are rejected -/

/-- C5 amended: (1) every store reachable through the public operations is
acyclic; (2) from a reachable store, any `addNode` batch whose would-be
state contains a dependency cycle fails, and the failure is the
cyclical-dependency error (for some node id) whenever every declared
dependency across the would-be state resolves — otherwise the
missing-dependency error can preempt it (see the counterexample). -/
theorem store_acyclic_and_cycle_rejected (s : Store) (ns : List Node) :
    (Reachable s → Acyclic s) ∧
    (Reachable s → (∃ a, Relation.TransGen (UnionStep s ns) a a) →
      (addNode s ns).error ≠ none ∧
      (AllDepsResolve s ns →
        ∃ c, (addNode s ns).error = some (.cyclicalDependency c))) := by
  refine ⟨reachable_acyclic, fun hreach ⟨a, hcyc⟩ => ?_⟩
  have hw := reachable_wf hreach
  have hn := reachable_nodup hreach
  have herrne : (addNode s ns).error ≠ none := by
    intro hok
    by_cases hni : ns.isEmpty
    · have hnsnil : ns = [] := List.isEmpty_iff.mp hni
      subst hnsnil
      have hmono : ∀ x y, UnionStep s [] x y → Step s x y := by
        intro x y ⟨n, hget, hyn⟩
        rw [List.append_nil] at hget
        exact ⟨n, (mapGet_eq_valueGetLast hw hn x).symm ▸ hget, hyn⟩
      exact reachable_acyclic hreach a
        (Relation.TransGen.mono hmono hcyc)
    · have hac := addNode_acyclic hw hn hni hok
      have hmono : ∀ x y, UnionStep s ns x y →
          Step (addNode s ns).store x y := by
        intro x y ⟨n, hget, hyn⟩
        exact ⟨n, (addNode_store_get hw hn hok x).symm ▸ hget, hyn⟩
      exact hac a (Relation.TransGen.mono hmono hcyc)
  refine ⟨herrne, fun hres => ?_⟩
  cases herr : (addNode s ns).error with
  | none => exact absurd herr herrne
  | some e =>
    have hthrew := addNode_error_from_threw s ns e herr
    rcases runDFS_threw_shape hthrew with ⟨c, rfl⟩ | ⟨n0, hn0, ⟨d, hd, hnone⟩, _⟩
    · exact ⟨c, rfl⟩
    · exfalso
      rw [indexFrom_map_snd] at hn0
      apply hres n0 hn0 d hd
      have hcorr := umapGet_valueGetLast (s.map Prod.snd ++ ns) 0 d
      rw [hnone] at hcorr
      exact hcorr.symm

/-- Witness for the amended C5 on a concrete self-cycle batch. -/
theorem store_acyclic_and_cycle_rejected_witness :
    Reachable ([] : Store) ∧
    Relation.TransGen (UnionStep [] [⟨"a", ["a"], ""⟩]) "a" "a" ∧
    AllDepsResolve [] [⟨"a", ["a"], ""⟩] ∧
    (addNode [] [⟨"a", ["a"], ""⟩]).error ≠ none ∧
    (∃ c, (addNode [] [⟨"a", ["a"], ""⟩]).error
      = some (.cyclicalDependency c)) := by
  have hcyc : Relation.TransGen (UnionStep [] [⟨"a", ["a"], ""⟩]) "a" "a" :=
    .single ⟨⟨"a", ["a"], ""⟩, by decide, by decide⟩
  refine ⟨.empty, hcyc, by decide, ?_, ?_⟩
  · exact ((store_acyclic_and_cycle_rejected [] [⟨"a", ["a"], ""⟩]).2
      .empty ⟨"a", hcyc⟩).1
  · exact ((store_acyclic_and_cycle_rejected [] [⟨"a", ["a"], ""⟩]).2
      .empty ⟨"a", hcyc⟩).2 (by decide)

/-! ## C2 amended: no dangling dependencies after a successful `addNode` -/

/-- C2 amended: a successful `addNode` commits a store in which every
declared dependency of every stored node resolves (an empty batch is a
no-op); `removeNode`, by contrast, can break this invariant (see the
counterexample), so it does not hold of all reachable states. -/
theorem addNode_no_dangling (s : Store) (ns : List Node) (hw : WfStore s)
    (hn : KeysNodup s) :
    (ns.isEmpty → (addNode s ns).store = s) ∧
    (¬ ns.isEmpty → (addNode s ns).error = none →
      NoDangling (addNode s ns).store) := by
  constructor
  · intro hni
    have hnsnil : ns = [] := List.isEmpty_iff.mp hni
    subst hnsnil
    rfl
  · intro hni hok
    exact noDangling_of_addNode_ok hw hn hni hok

/-- Witness for the amended C2 on a concrete two-node batch. -/
theorem addNode_no_dangling_witness :
    WfStore ([] : Store) ∧ KeysNodup ([] : Store) ∧
    ¬ ([⟨"a", [], ""⟩, ⟨"b", ["a"], ""⟩] : List Node).isEmpty ∧
    (addNode [] [⟨"a", [], ""⟩, ⟨"b", ["a"], ""⟩]).error = none ∧
    NoDangling (addNode [] [⟨"a", [], ""⟩, ⟨"b", ["a"], ""⟩]).store := by
  refine ⟨by decide, by decide, by decide, by decide, ?_⟩
  exact (addNode_no_dangling [] [⟨"a", [], ""⟩, ⟨"b", ["a"], ""⟩]
    (by decide) (by decide)).2 (by decide) (by decide)

/-! ## C10: events of a two-id removal where one id depends on the other -/

theorem filter_subsume {l : List Node} {q r : Node → Bool}
    (himp : ∀ n, r n = true → q n = true) :
    (l.filter q).filter r = l.filter r := by
  induction l with
  | nil => rfl
  | cons n rest ih =>
    cases hr : r n with
    | true =>
      have hq := himp n hr
      rw [List.filter_cons, if_pos (by rw [hq]), List.filter_cons,
        if_pos (by rw [hr]), List.filter_cons, if_pos (by rw [hr]), ih]
    | false =>
      cases hq : q n with
      | true =>
        rw [List.filter_cons, if_pos (by rw [hq]), List.filter_cons,
          if_neg (by rw [hr]; simp), List.filter_cons,
          if_neg (by rw [hr]; simp), ih]
      | false =>
        rw [List.filter_cons, if_neg (by rw [hq]; simp), List.filter_cons,
          if_neg (by rw [hr]; simp), ih]

theorem filter_swap (l : List Node) (c r : Node → Bool) :
    (l.filter c).filter r = (l.filter r).filter c := by
  induction l with
  | nil => rfl
  | cons n rest ih =>
    cases hc : c n with
    | true =>
      cases hr : r n with
      | true =>
        rw [List.filter_cons, if_pos (by rw [hc]), List.filter_cons,
          if_pos (by rw [hr]), List.filter_cons, if_pos (by rw [hr]),
          List.filter_cons, if_pos (by rw [hc]), ih]
      | false =>
        rw [List.filter_cons, if_pos (by rw [hc]), List.filter_cons,
          if_neg (by rw [hr]; simp), List.filter_cons,
          if_neg (by rw [hr]; simp), ih]
    | false =>
      cases hr : r n with
      | true =>
        rw [List.filter_cons, if_neg (by rw [hc]; simp), List.filter_cons,
          if_pos (by rw [hr]), List.filter_cons, if_neg (by rw [hc]; simp),
          ih]
      | false =>
        rw [List.filter_cons, if_neg (by rw [hc]; simp), List.filter_cons,
          if_neg (by rw [hr]; simp), ih]

theorem countP_of_filter (l : List Node) (p q : Node → Bool) :
    (l.filter p).countP q = l.countP (fun a => q a && p a) := by
  induction l with
  | nil => rfl
  | cons n rest ih =>
    cases hp : p n with
    | true =>
      rw [List.filter_cons, if_pos (by rw [hp]), List.countP_cons,
        List.countP_cons, ih, hp, Bool.and_true]
    | false =>
      rw [List.filter_cons, if_neg (by rw [hp]; simp), List.countP_cons, ih,
        hp, Bool.and_false]
      simp

theorem remove_events_filter (l : List Node) (rt : RemovalType)
    (k : NodeId) :
    (l.map (fun n => Event.remove n rt)).filter (eventForId k)
      = (l.filter (fun n => n.id = k)).map (fun n => Event.remove n rt) := by
  induction l with
  | nil => rfl
  | cons n rest ih =>
    rw [List.map_cons, List.filter_cons, List.filter_cons]
    cases hk : (decide (n.id = k)) with
    | true =>
      rw [if_pos (show eventForId k (Event.remove n rt) = true from hk),
        if_pos (show (true : Bool) = true from rfl), List.map_cons, ih]
    | false =>
      have h1 : eventForId k (Event.remove n rt) = false := hk
      rw [if_neg (by rw [h1]; simp), if_neg (by simp), ih]

/-- C10: removing two present ids `X` and `Y` together, where `Y` depends on
`X`, deletes `Y` but emits `node:remove` twice for it — once tagged `prune`
(it is a dependent of removed `X`) and then once tagged `direct` (it was
itself requested) — while `X` gets its single `direct` event. -/
theorem removeNode_two_ids_dependent_events (s : Store) (X Y : NodeId)
    (nx ny : Node) (hreach : Reachable s)
    (hx : mapGet s X = some nx) (hy : mapGet s Y = some ny)
    (hdep : X ∈ ny.deps) (hne : X ≠ Y) :
    mapGet (removeNode s [X, Y]).store Y = none ∧
    (removeNode s [X, Y]).events.filter (eventForId Y)
      = [.remove ny .prune, .remove ny .direct] ∧
    (removeNode s [X, Y]).events.filter (eventForId X)
      = [.remove nx .direct] := by
  have hw := reachable_wf hreach
  have hn := reachable_nodup hreach
  have hac := reachable_acyclic hreach
  have hxmem : (X, nx) ∈ s := mapGet_mem hx
  have hymem : (Y, ny) ∈ s := mapGet_mem hy
  have hidx : nx.id = X := (hw _ hxmem).symm
  have hidy : ny.id = Y := (hw _ hymem).symm
  have hXnx : X ∉ nx.deps := fun hc => hac X (.single ⟨nx, hx, hc⟩)
  have hYny : Y ∉ ny.deps := fun hc => hac Y (.single ⟨ny, hy, hc⟩)
  have hYnx : Y ∉ nx.deps := fun hc =>
    hac X (Relation.TransGen.head ⟨nx, hx, hc⟩ (.single ⟨ny, hy, hdep⟩))
  have hvalsY : (s.map Prod.snd).filter (fun a => a.id = Y) = [ny] :=
    values_filter_id_eq hw hn hymem
  have hvalsX : (s.map Prod.snd).filter (fun a => a.id = X) = [nx] :=
    values_filter_id_eq hw hn hxmem
  have himpY : ∀ n : Node, decide (n.id = Y) = true →
      (([X, Y] : List NodeId).contains n.id) = true := by
    intro n h0
    have : n.id = Y := by simpa using h0
    rw [this]
    simp
  have himpX : ∀ n : Node, decide (n.id = X) = true →
      (([X, Y] : List NodeId).contains n.id) = true := by
    intro n h0
    have : n.id = X := by simpa using h0
    rw [this]
    simp
  have hev : (removeNode s [X, Y]).events
      = (flatMapJS ((s.map Prod.snd).filter
            (fun n => ([X, Y] : List NodeId).contains n.id))
          (fun dependency => (s.map Prod.snd).filter
            (fun node => node.deps.contains dependency.id))).map
          (fun n => Event.remove n .prune)
        ++ ((s.map Prod.snd).filter
            (fun n => ([X, Y] : List NodeId).contains n.id)).map
          (fun n => Event.remove n .direct) := rfl
  refine ⟨?_, ?_, ?_⟩
  · rw [removeNode_get_char s [X, Y] Y hw hn, hy]
    have hrem : directlyRemoved s [X, Y] ny = true := by
      unfold directlyRemoved
      rw [Bool.or_eq_true]
      left
      rw [hidy]
      simp
    simp [hrem]
  · rw [hev, List.filter_append]
    have hdirY : (((s.map Prod.snd).filter
          (fun n => ([X, Y] : List NodeId).contains n.id)).map
          (fun n => Event.remove n .direct)).filter (eventForId Y)
        = [Event.remove ny .direct] := by
      rw [remove_events_filter, filter_subsume himpY, hvalsY]
      rfl
    have hpruY : ((flatMapJS ((s.map Prod.snd).filter
          (fun n => ([X, Y] : List NodeId).contains n.id))
          (fun dependency => (s.map Prod.snd).filter
            (fun node => node.deps.contains dependency.id))).map
          (fun n => Event.remove n .prune)).filter (eventForId Y)
        = [Event.remove ny .prune] := by
      rw [remove_events_filter, flatMapJS_filter]
      have hinner : ∀ dep ∈ (s.map Prod.snd).filter
          (fun n => ([X, Y] : List NodeId).contains n.id),
          ((s.map Prod.snd).filter
            (fun node => node.deps.contains dep.id)).filter
            (fun n => n.id = Y)
          = if ny.deps.contains dep.id then [ny] else [] := by
        intro dep _
        rw [filter_swap, hvalsY, List.filter_cons, List.filter_nil]
      rw [flatMapJS_congr hinner, flatMapJS_if_replicate]
      have hcount : (((s.map Prod.snd).filter
          (fun n => ([X, Y] : List NodeId).contains n.id)).countP
          (fun dep => ny.deps.contains dep.id)) = 1 := by
        rw [countP_of_filter]
        have hpt : (s.map Prod.snd).countP
            (fun a => ny.deps.contains a.id
              && ([X, Y] : List NodeId).contains a.id)
            = (s.map Prod.snd).countP (fun a => a.id = X) := by
          apply List.countP_congr
          intro a _
          by_cases haX : a.id = X
          · rw [haX]
            simp [hdep]
          · by_cases haY : a.id = Y
            · rw [haY]
              simp [hYny, Ne.symm hne]
            · simp [haX, haY]
        rw [hpt]
        exact values_countP_id hw hn (List.mem_map.mpr ⟨(X, nx), hxmem, rfl⟩)
      rw [hcount]
      rfl
    rw [hpruY, hdirY]
    rfl
  · rw [hev, List.filter_append]
    have hdirX : (((s.map Prod.snd).filter
          (fun n => ([X, Y] : List NodeId).contains n.id)).map
          (fun n => Event.remove n .direct)).filter (eventForId X)
        = [Event.remove nx .direct] := by
      rw [remove_events_filter, filter_subsume himpX, hvalsX]
      rfl
    have hpruX : ((flatMapJS ((s.map Prod.snd).filter
          (fun n => ([X, Y] : List NodeId).contains n.id))
          (fun dependency => (s.map Prod.snd).filter
            (fun node => node.deps.contains dependency.id))).map
          (fun n => Event.remove n .prune)).filter (eventForId X)
        = [] := by
      rw [remove_events_filter, flatMapJS_filter]
      have hinner : ∀ dep ∈ (s.map Prod.snd).filter
          (fun n => ([X, Y] : List NodeId).contains n.id),
          ((s.map Prod.snd).filter
            (fun node => node.deps.contains dep.id)).filter
            (fun n => n.id = X)
          = if nx.deps.contains dep.id then [nx] else [] := by
        intro dep _
        rw [filter_swap, hvalsX, List.filter_cons, List.filter_nil]
      rw [flatMapJS_congr hinner, flatMapJS_if_replicate]
      have hcount : (((s.map Prod.snd).filter
          (fun n => ([X, Y] : List NodeId).contains n.id)).countP
          (fun dep => nx.deps.contains dep.id)) = 0 := by
        rw [countP_of_filter]
        have hpt : (s.map Prod.snd).countP
            (fun a => nx.deps.contains a.id
              && ([X, Y] : List NodeId).contains a.id)
            = (s.map Prod.snd).countP (fun _ => false) := by
          apply List.countP_congr
          intro a _
          by_cases haX : a.id = X
          · rw [haX]
            simp [hXnx]
          · by_cases haY : a.id = Y
            · rw [haY]
              simp [hYnx]
            · simp [haX, haY]
        rw [hpt]
        simp
      rw [hcount]
      rfl
    rw [hpruX, hdirX]
    rfl

/-- Witness for C10 on a concrete two-node store built by `addNode`. -/
theorem removeNode_two_ids_dependent_events_witness :
    Reachable (addNode [] [⟨"x", [], ""⟩, ⟨"y", ["x"], ""⟩]).store ∧
    mapGet (addNode [] [⟨"x", [], ""⟩, ⟨"y", ["x"], ""⟩]).store "x"
      = some ⟨"x", [], ""⟩ ∧
    mapGet (addNode [] [⟨"x", [], ""⟩, ⟨"y", ["x"], ""⟩]).store "y"
      = some ⟨"y", ["x"], ""⟩ ∧
    ("x" : NodeId) ∈ (Node.mk "y" ["x"] "").deps ∧
    (mapGet (removeNode (addNode [] [⟨"x", [], ""⟩,
        ⟨"y", ["x"], ""⟩]).store ["x", "y"]).store "y" = none ∧
      (removeNode (addNode [] [⟨"x", [], ""⟩,
        ⟨"y", ["x"], ""⟩]).store ["x", "y"]).events.filter (eventForId "y")
        = [.remove ⟨"y", ["x"], ""⟩ .prune, .remove ⟨"y", ["x"], ""⟩ .direct] ∧
      (removeNode (addNode [] [⟨"x", [], ""⟩,
        ⟨"y", ["x"], ""⟩]).store ["x", "y"]).events.filter (eventForId "x")
        = [.remove ⟨"x", [], ""⟩ .direct]) := by
  refine ⟨.addStep [] _ .empty, by decide, by decide, by decide, ?_⟩
  exact removeNode_two_ids_dependent_events
    (addNode [] [⟨"x", [], ""⟩, ⟨"y", ["x"], ""⟩]).store "x" "y"
    ⟨"x", [], ""⟩ ⟨"y", ["x"], ""⟩ (.addStep [] _ .empty)
    (by decide) (by decide) (by decide) (by decide)

end PluginEngine
